import Mathlib

/-!
Shallow embedding of the match (record-linkage) engine of the
dynatrace-configuration-as-code repository, together with theorems that
settle the specification claims about it.

The embedding follows the Go source closely:
  - pkg/match/index_compare_rule_list.go (IndexCompareResultList and its
    operations: keepTopMatchesOnly, getUniqueMatchItems,
    sumMatchWeightValues, trimUniqueMatches, ProcessMatches,
    MergeRemainingWeightType, getMaxWeight, elevateWeight),
  - pkg/match/index_rules.go (genActiveList, genSortedActiveList,
    keepMatches, RunIndexRuleAll),
  - pkg/match/match_processing.go (PrepareRemainingMatch,
    adjustremainingMatch),
  - pkg/match/entities/match_entities_writer.go (genMultiMatchedMap,
    genOutputPayload, readMatchesPrev).

Go slices become Lean lists, Go maps become association lists iterated in
insertion order (theorems that depend on a maps iteration order are either
order independent or quantify over every list order), Go ints become Int
for weights and Nat for record indices, and Go sort.Sort becomes a stable
insertion sort by the same comparator (the engine re-sorts before every
order-sensitive pass with a comparator that is total on the data reaching
it, so the resulting lists are the same; tier sorting is the one exception
and is discussed at the corresponding claim).
-/

/-- A candidate pairing of a source record index and a target record index
with an accumulated weight.  Modelled from the spec: the CompareResult
struct (Compare Result: a candidate pairing of source index, target index
and accumulated weight) is declared in a file that is not part of the
provided sources, but every field access appears in the provided code. -/
structure CompareResult where
  LeftId : Nat
  RightId : Nat
  Weight : Int
deriving Repr, DecidableEq

/-- areIdsEqual from the source: two results are the same candidate pair
when both ids agree (the weight is ignored). -/
def CompareResult.areIdsEqual (a b : CompareResult) : Bool :=
  a.LeftId == b.LeftId && a.RightId == b.RightId

/-- The id pair of a result, used to state which candidate pairs a list
contains independently of weights. -/
def CompareResult.ids (a : CompareResult) : Nat × Nat :=
  (a.LeftId, a.RightId)

/-- newReversedIndexCompareResultList from the source: swap the two ids of
every result. -/
def reverseResults (l : List CompareResult) : List CompareResult :=
  l.map (fun r => ⟨r.RightId, r.LeftId, r.Weight⟩)

/-- Comparator of the ByLeftRight sort order.  Modelled from the spec:
compareCompareResults is not in the provided sources; the provided code
(sumMatchWeightValues, getUniqueMatchItems, trimUniqueMatches) requires it
to order results by LeftId and then RightId, and the spec demands explicit
stable sorts.  This is the non-strict form: a precedes or ties b. -/
def leLR (a b : CompareResult) : Prop :=
  a.LeftId < b.LeftId ∨ (a.LeftId = b.LeftId ∧ a.RightId ≤ b.RightId)

instance : DecidableRel leLR := fun a b => by
  unfold leLR; infer_instance

instance : IsTotal CompareResult leLR where
  total a b := by
    unfold leLR
    rcases Nat.lt_trichotomy a.LeftId b.LeftId with h | h | h
    · exact Or.inl (Or.inl h)
    · rcases Nat.le_total a.RightId b.RightId with h2 | h2
      · exact Or.inl (Or.inr ⟨h, h2⟩)
      · exact Or.inr (Or.inr ⟨h.symm, h2⟩)
    · exact Or.inr (Or.inl h)

instance : IsTrans CompareResult leLR where
  trans a b c hab hbc := by
    unfold leLR at *
    rcases hab with h1 | ⟨h1, h1r⟩
    · rcases hbc with h2 | ⟨h2, _⟩
      · exact Or.inl (h1.trans h2)
      · exact Or.inl (h2 ▸ h1)
    · rcases hbc with h2 | ⟨h2, h2r⟩
      · exact Or.inl (h1 ▸ h2)
      · exact Or.inr ⟨h1.trans h2, le_trans h1r h2r⟩

/-- Comparator of the ByTopMatch sort order.  Modelled from the spec:
ByTopMatch is not in the provided sources; keepTopMatchesOnly requires the
sort to group results by LeftId with the highest weight first in each
group (the top match first). -/
def leTop (a b : CompareResult) : Prop :=
  a.LeftId < b.LeftId ∨ (a.LeftId = b.LeftId ∧ b.Weight ≤ a.Weight)

instance : DecidableRel leTop := fun a b => by
  unfold leTop; infer_instance

instance : IsTotal CompareResult leTop where
  total a b := by
    unfold leTop
    rcases Nat.lt_trichotomy a.LeftId b.LeftId with h | h | h
    · exact Or.inl (Or.inl h)
    · rcases le_total b.Weight a.Weight with h2 | h2
      · exact Or.inl (Or.inr ⟨h, h2⟩)
      · exact Or.inr (Or.inr ⟨h.symm, h2⟩)
    · exact Or.inr (Or.inl h)

instance : IsTrans CompareResult leTop where
  trans a b c hab hbc := by
    unfold leTop at *
    rcases hab with h1 | ⟨h1, h1r⟩
    · rcases hbc with h2 | ⟨h2, _⟩
      · exact Or.inl (h1.trans h2)
      · exact Or.inl (h2 ▸ h1)
    · rcases hbc with h2 | ⟨h2, h2r⟩
      · exact Or.inl (h1 ▸ h2)
      · exact Or.inr ⟨h1.trans h2, le_trans h2r h1r⟩

/-- The sort method of the source (sort.Sort(ByLeftRight ...)). -/
def sortLR (l : List CompareResult) : List CompareResult :=
  l.insertionSort leLR

/-- sortTopMatches from the source (sort.Sort(ByTopMatch ...)). -/
def sortTop (l : List CompareResult) : List CompareResult :=
  l.insertionSort leTop

/-- Loop body of keepTopMatchesOnly: walk the ByTopMatch-sorted list; for
each LeftId group the first element carries the top weight; keep every
element of the group whose weight equals it, skip the others. -/
def keepTopAux (prevTop : CompareResult) : List CompareResult → List CompareResult
  | [] => []
  | r :: rest =>
    if r.LeftId = prevTop.LeftId then
      if r.Weight ≠ prevTop.Weight then keepTopAux prevTop rest
      else r :: keepTopAux prevTop rest
    else r :: keepTopAux r rest

/-- keepTopMatchesOnly from the source: sort by ByTopMatch, then keep, for
every source id, only the results tied at that sources top weight. -/
def keepTopMatchesOnly (l : List CompareResult) : List CompareResult :=
  match sortTop l with
  | [] => []
  | x :: rest => x :: keepTopAux x rest

/-- reduceBothForwardAndBackward from the source: keep top matches per
LeftId, reverse, keep top matches per (reversed) LeftId again.  Returns
the pair (new forward list, reverse list); the Go method assigns the first
component to the receiver and returns the second. -/
def reduceBothForwardAndBackward (l : List CompareResult) :
    List CompareResult × List CompareResult :=
  let fwd := keepTopMatchesOnly l
  let rev := keepTopMatchesOnly (reverseResults fwd)
  (reverseResults rev, rev)

/-- Loop body of getUniqueMatchItems: count how many consecutive results
share the LeftId of prevResult; emit prevResult when its group has exactly
one member. -/
def getUniqueAux (prevResult : CompareResult) (prevTotalSeen : Nat) :
    List CompareResult → List CompareResult
  | [] => if prevTotalSeen = 1 then [prevResult] else []
  | r :: rest =>
    if r.LeftId = prevResult.LeftId then
      getUniqueAux prevResult (prevTotalSeen + 1) rest
    else
      (if prevTotalSeen = 1 then [prevResult] else []) ++ getUniqueAux r 1 rest

/-- getUniqueMatchItems from the source: sort by ByLeftRight and keep the
results whose LeftId occurs exactly once. -/
def getUniqueMatchItems (l : List CompareResult) : List CompareResult :=
  match sortLR l with
  | [] => []
  | x :: rest => getUniqueAux x 1 rest

/-- Loop body of sumMatchWeightValues: accumulate the weights of
consecutive results with equal id pairs into prevTotal; when the pair
changes (and at the end) emit prevTotal unless the split-match gate drops
it (weight below the maximum match value). -/
def sumAux (splitMatch : Bool) (maxMatchValue : Int) (prevTotal : CompareResult) :
    List CompareResult → List CompareResult
  | [] => if splitMatch && decide (prevTotal.Weight < maxMatchValue) then [] else [prevTotal]
  | b :: rest =>
    if prevTotal.areIdsEqual b then
      sumAux splitMatch maxMatchValue ⟨prevTotal.LeftId, prevTotal.RightId, prevTotal.Weight + b.Weight⟩ rest
    else
      (if splitMatch && decide (prevTotal.Weight < maxMatchValue) then [] else [prevTotal]) ++
        sumAux splitMatch maxMatchValue b rest

/-- sumMatchWeightValues from the source: when the list has more than one
element, sort it by ByLeftRight and sum the weights of results sharing the
same id pair; under split-match, drop summed results below the maximum
match value.  A list with at most one element is returned unchanged (the
early return of the source, which also skips the split-match gate). -/
def sumMatchWeightValues (splitMatch : Bool) (maxMatchValue : Int)
    (l : List CompareResult) : List CompareResult :=
  if l.length ≤ 1 then l
  else
    match sortLR l with
    | [] => []
    | x :: rest => sumAux splitMatch maxMatchValue x rest

/-- getMaxWeight from the source: the largest weight in the list, starting
from 0. -/
def getMaxWeight (l : List CompareResult) : Int :=
  l.foldl (fun m r => if m < r.Weight then r.Weight else m) 0

/-- elevateWeight from the source: add the given weight to every result. -/
def elevateWeight (lowerMaxWeight : Int) (l : List CompareResult) : List CompareResult :=
  l.map (fun r => ⟨r.LeftId, r.RightId, r.Weight + lowerMaxWeight⟩)

/-- Three-way comparison backing ByLeftRight, used by trimUniqueMatches.
Modelled from the spec: compareCompareResults is not in the provided
sources; trimUniqueMatches requires it to realize the ByLeftRight order as
a three-way comparison on (LeftId, RightId). -/
def compareCompareResults (a b : CompareResult) : Ordering :=
  if a.LeftId < b.LeftId then Ordering.lt
  else if b.LeftId < a.LeftId then Ordering.gt
  else if a.RightId < b.RightId then Ordering.lt
  else if b.RightId < a.RightId then Ordering.gt
  else Ordering.eq

/-- Advance of the trimUniqueMatches walk past unique items smaller than
the current candidate (the diff > 0 branch of the source loop, which moves
only the unique-item pointer). -/
def dropLtC (c : CompareResult) : List CompareResult → List CompareResult
  | [] => []
  | s :: ss =>
    match compareCompareResults c s with
    | Ordering.gt => dropLtC c ss
    | _ => s :: ss

/-- Merge walk of trimUniqueMatches over the two ByLeftRight-sorted lists:
for each candidate, advance past the unique items below it, then keep the
candidate when it is below the next unique item and drop it when it equals
it.  This is the loop of the source with the diff > 0 advances grouped
into dropLtC; on sorted inputs the two walks visit the same comparisons. -/
def trimAux : List CompareResult → List CompareResult → List CompareResult
  | [], _ => []
  | c :: cs, sgl =>
    match dropLtC c sgl with
    | [] => c :: trimAux cs []
    | s :: ss =>
      match compareCompareResults c s with
      | Ordering.lt => c :: trimAux cs (s :: ss)
      | _ => trimAux cs ss

/-- trimUniqueMatches from the source: sort both the candidate list and
the unique match list by ByLeftRight and remove the unique matches from
the candidates by a sorted merge walk.  (The source writes into an array
of the expected final size and logs an error on a size mismatch; on every
input reaching it the walk fills the array exactly, and the embedding
returns the walked list.) -/
def trimUniqueMatches (l uniqueMatchItems : List CompareResult) : List CompareResult :=
  trimAux (sortLR l) (sortLR uniqueMatchItems)

/-- extractUniqueTopMatch.  Modelled from the spec: the function itself is
not in the provided sources (only its callees keepTopMatchesOnly,
reduceBothForwardAndBackward and getUniqueMatchItems are, together with
its call site in ProcessMatches).  Per the spec, mutual-top-match
detection runs the double sort-and-filter reduction and then keeps the
pairs that are the single remaining candidate of their source and,
symmetrically, of their target: unique per LeftId in the reduced forward
list and unique per LeftId in the reduced reverse list.  Returns the
unique top matches together with the reduced forward list left in the
receiver. -/
def extractUniqueTopMatch (l : List CompareResult) :
    List CompareResult × List CompareResult :=
  let p := reduceBothForwardAndBackward l
  let uniqueForward := getUniqueMatchItems p.1
  let uniqueReverse := getUniqueMatchItems p.2
  (uniqueForward.filter
    (fun r => (CompareResult.mk r.RightId r.LeftId r.Weight) ∈ uniqueReverse), p.1)

/-- ProcessMatches from the source: sum the weights per candidate pair
(applying the split-match gate), extract the mutually unique top matches,
and trim them out of the candidate list.  Returns (unique top matches,
trimmed candidate list); the Go method assigns the second component to the
receiver and returns the first. -/
def ProcessMatches (splitMatch : Bool) (maxMatchValue : Int)
    (l : List CompareResult) : List CompareResult × List CompareResult :=
  if l.isEmpty then ([], [])
  else
    let summed := sumMatchWeightValues splitMatch maxMatchValue l
    let p := extractUniqueTopMatch summed
    (p.1, trimUniqueMatches p.2 p.1)

/-- MergeRemainingWeightType from the source: sum the current tier results
without a split-match gate, elevate every carried-over result by the
maximum weight of the summed current results, append, and sort. -/
def MergeRemainingWeightType (cur remainingResults : List CompareResult) :
    List CompareResult :=
  let summed := sumMatchWeightValues false 0 cur
  let lowerMaxWeight := getMaxWeight summed
  sortLR (summed ++ elevateWeight lowerMaxWeight remainingResults)

/-!
Rule model and the per-type engine driver (pkg/match/index_rules.go and
pkg/match/match_processing.go).  Records are abstract: the engine only
sees a record through the key-extraction functions of the rules, so the
embedding is parameterized by a record type and a key type.
-/

/-- An index rule.  Modelled from the spec: the rules package is not in
the provided sources; per the spec an Index Rule is a key-extraction
function, a positive weight value and a self-match-disabled flag, and the
provided code reads exactly the fields WeightValue and SelfMatchDisabled. -/
structure IndexRule (ρ κ : Type) where
  WeightValue : Int
  SelfMatchDisabled : Bool
  key : ρ → Option κ

/-- An index rule type (a tier).  Modelled from the spec: the rules
package is not in the provided sources; the provided code reads the
fields Key, IsSeed, SplitMatch, WeightValue and IndexRules. -/
structure IndexRuleType (ρ κ : Type) where
  Key : Nat
  IsSeed : Bool
  SplitMatch : Bool
  WeightValue : Int
  IndexRules : List (IndexRule ρ κ)

/-- genActiveList from the source: number the configured tiers, drop the
rules disabled for self matching when self-match mode is on, and keep the
tiers that still have at least one rule. -/
def genActiveList {ρ κ : Type} (selfMatch : Bool)
    (baseRuleList : List (IndexRuleType ρ κ)) : List (IndexRuleType ρ κ) :=
  ((baseRuleList.enum).map (fun p =>
      { Key := p.1
        IsSeed := p.2.IsSeed
        SplitMatch := p.2.SplitMatch
        WeightValue := p.2.WeightValue
        IndexRules := p.2.IndexRules.filter
          (fun conf => !(conf.SelfMatchDisabled && selfMatch)) })).filter
    (fun ruleType => 1 ≤ ruleType.IndexRules.length)

/-- Comparator of the ByWeightTypeValue sort order from the source:
descending tier weight (the non-strict form). -/
def leWeightType {ρ κ : Type} (a b : IndexRuleType ρ κ) : Prop :=
  b.WeightValue ≤ a.WeightValue

instance {ρ κ : Type} : DecidableRel (@leWeightType ρ κ) := fun a b => by
  unfold leWeightType; infer_instance

instance {ρ κ : Type} : IsTotal (IndexRuleType ρ κ) leWeightType where
  total a b := le_total b.WeightValue a.WeightValue

instance {ρ κ : Type} : IsTrans (IndexRuleType ρ κ) leWeightType where
  trans _ _ _ hab hbc := le_trans hbc hab

/-- genSortedActiveList from the source: the active tiers sorted by
descending tier weight.  The source sorts with Go sort.Sort, which only
guarantees a sorted permutation; the embedding uses a stable insertion
sort realizing one such permutation. -/
def genSortedActiveList {ρ κ : Type} (selfMatch : Bool)
    (baseRuleList : List (IndexRuleType ρ κ)) : List (IndexRuleType ρ κ) :=
  (genActiveList selfMatch baseRuleList).insertionSort leWeightType

/-- runIndexRule.  Modelled from the spec: compareIndexes and
genSortedItemsIndex are not in the provided sources; per the spec, a rule
builds an index over the current remaining source records and the current
remaining target records by its extracted key and emits one weighted
result for every cross pair whose keys are equal (an equi-join, restricted
to the current remaining records).  The rule counts toward the maximum
match value when it required no post-processing (never the case here, as
no tier in the provided sources registers post-processing) and at least
one side indexed at least one record. -/
def runIndexRule {ρ κ : Type} [DecidableEq κ] (indexRule : IndexRule ρ κ)
    (sourceRecs targetRecs : List ρ) (remSource remTarget : List Nat) :
    List CompareResult × Bool :=
  let keyOf := fun (recs : List ρ) (i : Nat) => (recs.get? i).bind indexRule.key
  let sourceIndexed := remSource.filterMap
    (fun s => (keyOf sourceRecs s).map (fun k => (s, k)))
  let targetIndexed := remTarget.filterMap
    (fun t => (keyOf targetRecs t).map (fun k => (t, k)))
  let results := sourceIndexed.flatMap (fun sk =>
    (targetIndexed.filter (fun tk => tk.2 = sk.2)).map
      (fun tk => CompareResult.mk sk.1 tk.1 indexRule.WeightValue))
  (results, !sourceIndexed.isEmpty || !targetIndexed.isEmpty)

/-- keepMatches from the source: enter every unique match into the matched
map (source index to target index).  The source logs an error when a
source index is already present and then overwrites it; the embedding
returns the error flag alongside the map, modelled as an association list
with Go map semantics (update in place when present, append when new). -/
def keepMatches (matchedEntities : List (Nat × Nat))
    (uniqueMatch : List CompareResult) : List (Nat × Nat) × Bool :=
  uniqueMatch.foldl
    (fun acc r =>
      if acc.1.any (fun p => p.1 = r.LeftId) then
        (acc.1.map (fun p => if p.1 = r.LeftId then (r.LeftId, r.RightId) else p), true)
      else
        (acc.1 ++ [(r.LeftId, r.RightId)], acc.2))
    (matchedEntities, false)

/-- Per-type engine state threaded through the tier loop of
RunIndexRuleAll: the remaining (not yet uniquely matched) indices of both
sides, the carried-over candidate results, the matched map, and the
accumulated keepMatches error flag. -/
structure EngineState where
  remSource : List Nat
  remTarget : List Nat
  carried : List CompareResult
  matched : List (Nat × Nat)
  dupError : Bool

/-- Current remaining source indices for a tier: PrepareRemainingMatch is
called with keepSeeded true and keepUnseeded the seed flag of the tier, so
a seed tier works on the full remaining set and any other tier only on the
indices appearing in the carried result list (genSeededMatch, which is not
in the provided sources, restricts per the spec to the indices appearing
in the supplied result list). -/
def seededSource (st : EngineState) (isSeed : Bool) : List Nat :=
  if isSeed then st.remSource
  else st.remSource.filter (fun s => st.carried.any (fun r => r.LeftId = s))

/-- Current remaining target indices for a tier (see seededSource). -/
def seededTarget (st : EngineState) (isSeed : Bool) : List Nat :=
  if isSeed then st.remTarget
  else st.remTarget.filter (fun t => st.carried.any (fun r => r.RightId = t))

/-- The rule loop of one tier of RunIndexRuleAll: run every rule of the
tier, concatenating the emitted results and accumulating the maximum
match value of the rules that count toward it. -/
def tierFresh {ρ κ : Type} [DecidableEq κ] (sourceRecs targetRecs : List ρ)
    (rules : List (IndexRule ρ κ)) (curSource curTarget : List Nat) :
    List CompareResult × Int :=
  rules.foldl
    (fun (acc : List CompareResult × Int) indexRule =>
      (acc.1 ++ (runIndexRule indexRule sourceRecs targetRecs curSource curTarget).1,
       if (runIndexRule indexRule sourceRecs targetRecs curSource curTarget).2
       then acc.2 + indexRule.WeightValue else acc.2))
    ([], 0)

/-- The processing of one tier: merge the carried results into the fresh
results and extract the unique top matches (ProcessMatches), returning
(unique matches, trimmed leftover list). -/
def tierProcessed {ρ κ : Type} [DecidableEq κ] (sourceRecs targetRecs : List ρ)
    (st : EngineState) (ruleType : IndexRuleType ρ κ) :
    List CompareResult × List CompareResult :=
  ProcessMatches ruleType.SplitMatch
    (tierFresh sourceRecs targetRecs ruleType.IndexRules
      (seededSource st ruleType.IsSeed) (seededTarget st ruleType.IsSeed)).2
    (MergeRemainingWeightType
      (tierFresh sourceRecs targetRecs ruleType.IndexRules
        (seededSource st ruleType.IsSeed) (seededTarget st ruleType.IsSeed)).1
      st.carried)

/-- One iteration of the tier loop of RunIndexRuleAll: run the rules of
the tier over the prepared remaining sets, merge the carried results,
process the matches, commit them (keepMatches), keep the trimmed leftover
list, and remove the matched indices from both remaining sets
(adjustremainingMatch backed by reduceRemainingMatchList, which per the
spec subtracts the matched indices from each side independently). -/
def runTier {ρ κ : Type} [DecidableEq κ] (sourceRecs targetRecs : List ρ)
    (st : EngineState) (ruleType : IndexRuleType ρ κ) : EngineState :=
  { remSource := st.remSource.filter
      (fun s => !((tierProcessed sourceRecs targetRecs st ruleType).1.any
        (fun r => r.LeftId = s)))
    remTarget := st.remTarget.filter
      (fun t => !((tierProcessed sourceRecs targetRecs st ruleType).1.any
        (fun r => r.RightId = t)))
    carried := (tierProcessed sourceRecs targetRecs st ruleType).2
    matched := (keepMatches st.matched
      (tierProcessed sourceRecs targetRecs st ruleType).1).1
    dupError := st.dupError || (keepMatches st.matched
      (tierProcessed sourceRecs targetRecs st ruleType).1).2 }

/-- RunIndexRuleAll from the source: run every active tier in descending
tier-weight order over the two record sets, starting from full remaining
sets, an empty carried list and an empty matched map.  Returns the final
carried (leftover candidate) list, the matched map, and the accumulated
keepMatches error flag. -/
def RunIndexRuleAll {ρ κ : Type} [DecidableEq κ] (selfMatch : Bool)
    (baseRuleList : List (IndexRuleType ρ κ)) (sourceRecs targetRecs : List ρ) :
    List CompareResult × List (Nat × Nat) × Bool :=
  let ruleTypes := genSortedActiveList selfMatch baseRuleList
  let st0 : EngineState :=
    { remSource := List.range sourceRecs.length
      remTarget := List.range targetRecs.length
      carried := []
      matched := []
      dupError := false }
  let stF := ruleTypes.foldl (runTier sourceRecs targetRecs) st0
  (stF.carried, stF.matched, stF.dupError)

/-!
Output assembly for entities (pkg/match/entities/match_entities_writer.go).
The writer reads exactly two fields of a record: the entityId string and
the firstSeenTms number; a record is embedded as just those two fields.
Go maps keyed by strings become association lists; every theorem below
either is independent of the iteration order or quantifies over all list
orders.
-/

/-- An entity record as seen by the output writer: the entityId and
firstSeenTms fields read from the raw record. -/
structure EntityRec where
  entityId : String
  firstSeenTms : Int
deriving Repr, DecidableEq

/-- Record lookup by index (Go indexes the backing slice directly; every
index reaching it is in range, and theorems add range hypotheses where
they matter). -/
def recAt (recs : List EntityRec) (i : Nat) : EntityRec :=
  recs.getD i ⟨"", 0⟩

/-- Does the association list bind the key. -/
def hasKey {β : Type} (m : List (String × β)) (k : String) : Bool :=
  m.any (fun p => p.1 = k)

/-- Association list lookup. -/
def lookupKV {β : Type} (m : List (String × β)) (k : String) : Option β :=
  (m.find? (fun p => p.1 = k)).map (fun p => p.2)

/-- Go map assignment on an association list: update in place when the
key is present, append otherwise. -/
def setKV {β : Type} (m : List (String × β)) (k : String) (v : β) :
    List (String × β) :=
  if hasKey m k then m.map (fun p => if p.1 = k then (k, v) else p)
  else m ++ [(k, v)]

/-- The output payload: Matches, MultiMatched and UnMatched keyed by
external entity ids (the type name and extraction metadata carry no logic
and are omitted). -/
structure MatchOutputType where
  Matches : List (String × String)
  MultiMatched : List (String × List String)
  UnMatched : List String
deriving Repr, DecidableEq

/-- The consecutive LeftId groups of a result list, mirroring the group
loop of genMultiMatchedMap (firstIdx to i). -/
def groupsByLeft : List CompareResult → List (List CompareResult)
  | [] => []
  | r :: rest =>
    match groupsByLeft rest with
    | [] => [[r]]
    | [] :: gs => [r] :: [] :: gs
    | (s :: g) :: gs =>
      if r.LeftId = s.LeftId then (r :: s :: g) :: gs
      else [r] :: (s :: g) :: gs

/-- One step of the first-seen selection loop of addMatchingMultiMatched:
replace the running best when the current target was first seen strictly
later. -/
def selStep (targetRecs : List EntityRec) (best : Int × Option String)
    (r : CompareResult) : Int × Option String :=
  if best.1 < (recAt targetRecs r.RightId).firstSeenTms then
    ((recAt targetRecs r.RightId).firstSeenTms,
     some ((recAt targetRecs r.RightId).entityId))
  else best

/-- The target selected for first-seen promotion within one LeftId group:
the first target whose firstSeenTms strictly exceeds every earlier one,
with the running best starting at 0. -/
def selectFirstSeen (targetRecs : List EntityRec) (g : List CompareResult) :
    Option String :=
  (g.foldl (selStep targetRecs) (0, none)).2

/-- Body of addMatchingMultiMatched from the source, for one LeftId group:
skip the group when the source id is already a key of the previous run
Matches; otherwise record the target id list under the source id and, for
promotion, the selected first-seen target if there is one. -/
def addMatchingMultiMatched (sourceRecs targetRecs : List EntityRec)
    (prevMatches : List (String × String))
    (acc : List (String × List String) × List (String × String))
    (g : List CompareResult) :
    List (String × List String) × List (String × String) :=
  match g with
  | [] => acc
  | c :: _ =>
    let entityIdSource := (recAt sourceRecs c.LeftId).entityId
    if hasKey prevMatches entityIdSource then acc
    else
      let targets := g.map (fun r => (recAt targetRecs r.RightId).entityId)
      let fsMap := match selectFirstSeen targetRecs g with
        | none => acc.2
        | some t => setKV acc.2 entityIdSource t
      (setKV acc.1 entityIdSource targets, fsMap)

/-- genMultiMatchedMap from the source: walk the leftover candidate list
in LeftId groups building the multi-matched map and the first-seen
promotion map, then block every source whose promoted target is also the
promoted target of another source, and return the multi-matched map with
the surviving promotions. -/
def multiMatchedPair (sourceRecs targetRecs : List EntityRec)
    (results : List CompareResult) (prevMatches : List (String × String)) :
    List (String × List String) × List (String × String) :=
  (groupsByLeft results).foldl
    (addMatchingMultiMatched sourceRecs targetRecs prevMatches) ([], [])

/-- One step of the conflict-detection loop of genMultiMatchedMap: a
promoted target already claimed by another source blocks both sources. -/
def blockStep (acc : List (String × String) × List String)
    (st : String × String) : List (String × String) × List String :=
  match lookupKV acc.1 st.2 with
  | some entityIdSourceReverse => (acc.1, acc.2 ++ [entityIdSourceReverse, st.1])
  | none => (acc.1 ++ [(st.2, st.1)], acc.2)

/-- The sources blocked by conflicting first-seen promotions. -/
def blockedSources (matchedByFirstSeen : List (String × String)) : List String :=
  (matchedByFirstSeen.foldl blockStep ([], [])).2

def genMultiMatchedMap (sourceRecs targetRecs : List EntityRec)
    (results : List CompareResult) (prevMatches : List (String × String)) :
    List (String × List String) × List (String × String) :=
  ((multiMatchedPair sourceRecs targetRecs results prevMatches).1,
   (multiMatchedPair sourceRecs targetRecs results prevMatches).2.filter
     (fun st => !((blockedSources
       (multiMatchedPair sourceRecs targetRecs results prevMatches).2).contains st.1)))

/-- isAlreadyMatched from the source, acting on the pair (Matches map,
reverse map): skip a pair whose source id is already matched or whose
target id is already claimed, and otherwise claim the target and enter the
match. -/
def addMatchPair (st : List (String × String) × List (String × String))
    (entityIdSource entityIdTarget : String) :
    List (String × String) × List (String × String) :=
  if hasKey st.1 entityIdSource then st
  else if hasKey st.2 entityIdTarget then st
  else (st.1 ++ [(entityIdSource, entityIdTarget)],
        st.2 ++ [(entityIdTarget, entityIdSource)])

/-- genOutputPayload from the source: build the multi-matched and
first-seen maps, restrict the remaining source indices to the unseeded
ones (PrepareRemainingMatch with keepSeeded false and keepUnseeded true;
genUnSeededMatch, which is not in the provided sources, restricts per the
spec to the complement of the indices appearing in the result list), then
enter matches with precedence current unique matches, previous-run
matches, first-seen promotions, and finally list the unseeded remaining
source ids that are not previous-run keys as unmatched. -/
def genOutputPayload (sourceRecs targetRecs : List EntityRec)
    (results : List CompareResult) (matchedEntities : List (Nat × Nat))
    (prevMatches : MatchOutputType) (remainingMatch : List Nat) :
    MatchOutputType :=
  let mm := genMultiMatchedMap sourceRecs targetRecs results prevMatches.Matches
  let currentRemaining := remainingMatch.filter
    (fun s => !(results.any (fun r => r.LeftId = s)))
  let st1 := matchedEntities.foldl
    (fun st p => addMatchPair st (recAt sourceRecs p.1).entityId
      (recAt targetRecs p.2).entityId)
    ([], [])
  let st2 := prevMatches.Matches.foldl
    (fun st p => addMatchPair st p.1 p.2) st1
  let st3 := mm.2.foldl (fun st p => addMatchPair st p.1 p.2) st2
  { Matches := st3.1
    MultiMatched := mm.1
    UnMatched := (currentRemaining.map (fun i => (recAt sourceRecs i).entityId)).filter
      (fun entityIdSource => !(hasKey prevMatches.Matches entityIdSource)) }

/-- The file-system and JSON outcomes readMatchesPrev depends on, supplied
as data: the configured previous-result directory, whether the existence
check errors, the bytes read (none when reading errors), and the outcome
of unmarshalling those bytes. -/
structure PrevReadEnv where
  prevResultDir : String
  existsCheckFails : Bool
  readResult : Option (List Nat)
  unmarshalResult : Except String MatchOutputType

/-- readMatchesPrev from the source: no directory configured, a failing
existence check or a failing read all yield empty previous data and no
error; a successfully read but zero-byte file is an error; otherwise the
unmarshal outcome (data on success, error on failure) is returned. -/
def readMatchesPrev (env : PrevReadEnv) : Except String MatchOutputType :=
  if env.prevResultDir = "" then Except.ok ⟨[], [], []⟩
  else if env.existsCheckFails then Except.ok ⟨[], [], []⟩
  else
    match env.readResult with
    | none => Except.ok ⟨[], [], []⟩
    | some data =>
      if data.length = 0 then Except.error "file is empty"
      else env.unmarshalResult

/-!
Infrastructure lemmas about the engine list functions.
-/

/-- The id pairs of a result list. -/
def idPairs (l : List CompareResult) : List (Nat × Nat) :=
  l.map CompareResult.ids

/-- Number of results with the given LeftId. -/
def countLeft (l : List CompareResult) (i : Nat) : Nat :=
  l.countP (fun r => r.LeftId == i)

/-- Number of results with the given RightId. -/
def countRight (l : List CompareResult) (i : Nat) : Nat :=
  l.countP (fun r => r.RightId == i)

theorem sortLR_perm (l : List CompareResult) : List.Perm (sortLR l) l :=
  List.perm_insertionSort leLR l

theorem sortTop_perm (l : List CompareResult) : List.Perm (sortTop l) l :=
  List.perm_insertionSort leTop l

theorem sortLR_sorted (l : List CompareResult) : List.Sorted leLR (sortLR l) :=
  List.sorted_insertionSort leLR l

theorem sortTop_sorted (l : List CompareResult) : List.Sorted leTop (sortTop l) :=
  List.sorted_insertionSort leTop l

theorem mem_sortLR {l : List CompareResult} {r : CompareResult} :
    r ∈ sortLR l ↔ r ∈ l :=
  (sortLR_perm l).mem_iff

theorem mem_sortTop {l : List CompareResult} {r : CompareResult} :
    r ∈ sortTop l ↔ r ∈ l :=
  (sortTop_perm l).mem_iff

theorem mem_reverseResults {l : List CompareResult} {r : CompareResult} :
    r ∈ reverseResults l ↔ CompareResult.mk r.RightId r.LeftId r.Weight ∈ l := by
  unfold reverseResults
  rw [List.mem_map]
  constructor
  · rintro ⟨a, ha, rfl⟩
    exact ha
  · intro h
    exact ⟨CompareResult.mk r.RightId r.LeftId r.Weight, h, rfl⟩

theorem reverseResults_reverseResults (l : List CompareResult) :
    reverseResults (reverseResults l) = l := by
  induction l with
  | nil => rfl
  | cons r rest ih => simp [reverseResults] at ih ⊢; exact ih

theorem keepTopAux_sublist (prevTop : CompareResult) :
    ∀ rest : List CompareResult, (keepTopAux prevTop rest).Sublist rest := by
  intro rest
  induction rest generalizing prevTop with
  | nil => simp [keepTopAux]
  | cons h t ih =>
    by_cases h1 : h.LeftId = prevTop.LeftId
    · by_cases h2 : h.Weight ≠ prevTop.Weight
      · simp only [keepTopAux, if_pos h1, if_pos h2]
        exact (ih prevTop).trans (List.sublist_cons_self h t)
      · simp only [keepTopAux, if_pos h1, if_neg h2]
        exact (ih prevTop).cons₂ h
    · simp only [keepTopAux, if_neg h1]
      exact (ih h).cons₂ h

theorem keepTopMatchesOnly_sublist_sortTop (l : List CompareResult) :
    (keepTopMatchesOnly l).Sublist (sortTop l) := by
  unfold keepTopMatchesOnly
  cases h : sortTop l with
  | nil => simp
  | cons x rest => exact (keepTopAux_sublist x rest).cons₂ x

theorem mem_keepTopMatchesOnly_mem {l : List CompareResult} {r : CompareResult}
    (h : r ∈ keepTopMatchesOnly l) : r ∈ l :=
  mem_sortTop.mp ((keepTopMatchesOnly_sublist_sortTop l).mem h)

theorem getUniqueAux_mem_cases {prevResult : CompareResult} {n : Nat}
    {rest : List CompareResult} {r : CompareResult}
    (h : r ∈ getUniqueAux prevResult n rest) : r = prevResult ∨ r ∈ rest := by
  induction rest generalizing prevResult n with
  | nil =>
    simp only [getUniqueAux] at h
    split at h
    · simp at h; exact Or.inl h
    · simp at h
  | cons b t ih =>
    simp only [getUniqueAux] at h
    split at h
    · rcases ih h with h1 | h1
      · exact Or.inl h1
      · exact Or.inr (List.mem_cons_of_mem b h1)
    · rcases List.mem_append.mp h with h1 | h1
      · split at h1
        · simp at h1; exact Or.inl h1
        · simp at h1
      · rcases ih h1 with h2 | h2
        · exact Or.inr (h2 ▸ List.mem_cons_self b t)
        · exact Or.inr (List.mem_cons_of_mem b h2)

theorem mem_getUniqueMatchItems_mem {l : List CompareResult} {r : CompareResult}
    (h : r ∈ getUniqueMatchItems l) : r ∈ l := by
  unfold getUniqueMatchItems at h
  split at h
  · simp at h
  · rename_i x rest heq
    rcases getUniqueAux_mem_cases h with h1 | h1
    · have hx : r ∈ sortLR l := heq ▸ (h1 ▸ List.mem_cons_self x rest)
      exact mem_sortLR.mp hx
    · have hx : r ∈ sortLR l := heq ▸ List.mem_cons_of_mem x h1
      exact mem_sortLR.mp hx

theorem sumAux_ids_cases {splitMatch : Bool} {maxMatchValue : Int}
    {prevTotal : CompareResult} {rest : List CompareResult} {r : CompareResult}
    (h : r ∈ sumAux splitMatch maxMatchValue prevTotal rest) :
    r.ids = prevTotal.ids ∨ ∃ r2 ∈ rest, r.ids = r2.ids := by
  induction rest generalizing prevTotal with
  | nil =>
    simp only [sumAux] at h
    split at h
    · simp at h
    · simp at h
      exact Or.inl (by rw [h])
  | cons b t ih =>
    simp only [sumAux] at h
    split at h
    · rcases ih h with h1 | h1
      · simp only [CompareResult.ids] at h1
        exact Or.inl h1
      · rcases h1 with ⟨r2, hr2, he⟩
        exact Or.inr ⟨r2, List.mem_cons_of_mem b hr2, he⟩
    · rcases List.mem_append.mp h with h1 | h1
      · split at h1
        · simp at h1
        · simp at h1
          exact Or.inl (by rw [h1])
      · rcases ih h1 with h2 | h2
        · exact Or.inr ⟨b, List.mem_cons_self b t, h2⟩
        · rcases h2 with ⟨r2, hr2, he⟩
          exact Or.inr ⟨r2, List.mem_cons_of_mem b hr2, he⟩

theorem sumMatchWeightValues_ids_mem {splitMatch : Bool} {maxMatchValue : Int}
    {l : List CompareResult} {r : CompareResult}
    (h : r ∈ sumMatchWeightValues splitMatch maxMatchValue l) :
    ∃ r2 ∈ l, r.ids = r2.ids := by
  unfold sumMatchWeightValues at h
  split at h
  · exact ⟨r, h, rfl⟩
  · split at h
    · simp at h
    · rename_i x rest heq
      rcases sumAux_ids_cases h with h1 | h1
      · refine ⟨x, ?_, h1⟩
        exact mem_sortLR.mp (heq ▸ List.mem_cons_self x rest)
      · rcases h1 with ⟨r2, hr2, he⟩
        exact ⟨r2, mem_sortLR.mp (heq ▸ List.mem_cons_of_mem x hr2), he⟩

theorem leTop_left_le {a b : CompareResult} (h : leTop a b) :
    a.LeftId ≤ b.LeftId := by
  rcases h with h | ⟨h, _⟩
  · exact Nat.le_of_lt h
  · exact Nat.le_of_eq h

theorem leTop_same_left {a b : CompareResult} (h : leTop a b)
    (he : b.LeftId = a.LeftId) : b.Weight ≤ a.Weight := by
  rcases h with h | ⟨_, h2⟩
  · exact absurd (he ▸ h) (lt_irrefl b.LeftId)
  · exact h2

/-- Membership in the keepTopMatchesOnly walk: with the list sorted in the
ByTopMatch order, an element of the tail is kept exactly when its weight
is at least every weight appearing with its LeftId. -/
theorem keepTopAux_mem {prevTop : CompareResult} {rest : List CompareResult}
    (hs : List.Pairwise leTop (prevTop :: rest)) {r : CompareResult} :
    r ∈ keepTopAux prevTop rest ↔
      r ∈ rest ∧ ∀ r2 ∈ prevTop :: rest, r2.LeftId = r.LeftId → r2.Weight ≤ r.Weight := by
  induction rest generalizing prevTop with
  | nil => simp [keepTopAux]
  | cons h t ih =>
    have hph : leTop prevTop h := (List.pairwise_cons.mp hs).1 h (List.mem_cons_self h t)
    have hpt : ∀ x ∈ t, leTop prevTop x := fun x hx =>
      (List.pairwise_cons.mp hs).1 x (List.mem_cons_of_mem h hx)
    have hsht : List.Pairwise leTop (h :: t) := (List.pairwise_cons.mp hs).2
    have hht : ∀ x ∈ t, leTop h x := (List.pairwise_cons.mp hsht).1
    have hspt : List.Pairwise leTop (prevTop :: t) := by
      refine List.pairwise_cons.mpr ⟨hpt, (List.pairwise_cons.mp hsht).2⟩
    by_cases h1 : h.LeftId = prevTop.LeftId
    · by_cases h2 : h.Weight ≠ prevTop.Weight
      · have hwlt : h.Weight < prevTop.Weight :=
          lt_of_le_of_ne (leTop_same_left hph h1) h2
        simp only [keepTopAux, if_pos h1, if_pos h2]
        rw [ih hspt]
        constructor
        · rintro ⟨hmem, hcond⟩
          refine ⟨List.mem_cons_of_mem h hmem, ?_⟩
          intro r2 hr2 hle
          rcases List.mem_cons.mp hr2 with rfl | hr2
          · exact hcond r2 (List.mem_cons_self _ _) hle
          · rcases List.mem_cons.mp hr2 with rfl | hr2
            · have hpw : prevTop.Weight ≤ r.Weight :=
                hcond prevTop (List.mem_cons_self _ _) (h1 ▸ hle)
              exact le_of_lt (lt_of_lt_of_le hwlt hpw)
            · exact hcond r2 (List.mem_cons_of_mem prevTop hr2) hle
        · rintro ⟨hmem, hcond⟩
          rcases List.mem_cons.mp hmem with rfl | hmem
          · have hc : prevTop.Weight ≤ r.Weight :=
              hcond prevTop (List.mem_cons_self _ _) h1.symm
            exact absurd hc (not_le.mpr hwlt)
          · refine ⟨hmem, ?_⟩
            intro r2 hr2 hle
            rcases List.mem_cons.mp hr2 with rfl | hr2
            · exact hcond r2 (List.mem_cons_self _ _) hle
            · exact hcond r2 (List.mem_cons_of_mem prevTop (List.mem_cons_of_mem h hr2)) hle
      · push_neg at h2
        simp only [keepTopAux, if_pos h1]
        rw [if_neg (not_not_intro h2), List.mem_cons, ih hspt]
        constructor
        · rintro (rfl | ⟨hmem, hcond⟩)
          · refine ⟨List.mem_cons_self r t, ?_⟩
            intro r2 hr2 hle
            rcases List.mem_cons.mp hr2 with rfl | hr2
            · exact le_of_eq h2.symm
            · rcases List.mem_cons.mp hr2 with rfl | hr2
              · exact le_refl _
              · exact leTop_same_left (hht r2 hr2) hle
          · refine ⟨List.mem_cons_of_mem h hmem, ?_⟩
            intro r2 hr2 hle
            rcases List.mem_cons.mp hr2 with rfl | hr2
            · exact hcond r2 (List.mem_cons_self _ _) hle
            · rcases List.mem_cons.mp hr2 with rfl | hr2
              · have hpw : prevTop.Weight ≤ r.Weight :=
                  hcond prevTop (List.mem_cons_self _ _) (h1 ▸ hle)
                exact h2 ▸ hpw
              · exact hcond r2 (List.mem_cons_of_mem prevTop hr2) hle
        · rintro ⟨hmem, hcond⟩
          rcases List.mem_cons.mp hmem with rfl | hmem
          · exact Or.inl rfl
          · refine Or.inr ⟨hmem, ?_⟩
            intro r2 hr2 hle
            rcases List.mem_cons.mp hr2 with rfl | hr2
            · exact hcond r2 (List.mem_cons_self _ _) hle
            · exact hcond r2 (List.mem_cons_of_mem prevTop (List.mem_cons_of_mem h hr2)) hle
    · have hplt : prevTop.LeftId < h.LeftId :=
        lt_of_le_of_ne (leTop_left_le hph) (fun he => h1 he.symm)
      simp only [keepTopAux, if_neg h1]
      rw [List.mem_cons, ih hsht]
      constructor
      · rintro (rfl | ⟨hmem, hcond⟩)
        · refine ⟨List.mem_cons_self r t, ?_⟩
          intro r2 hr2 hle
          rcases List.mem_cons.mp hr2 with rfl | hr2
          · exact absurd hle (by omega)
          · rcases List.mem_cons.mp hr2 with rfl | hr2
            · exact le_refl _
            · exact leTop_same_left (hht r2 hr2) hle
        · have hrl : h.LeftId ≤ r.LeftId := leTop_left_le (hht r hmem)
          refine ⟨List.mem_cons_of_mem h hmem, ?_⟩
          intro r2 hr2 hle
          rcases List.mem_cons.mp hr2 with rfl | hr2
          · exact absurd hle (by omega)
          · exact hcond r2 hr2 hle
      · rintro ⟨hmem, hcond⟩
        rcases List.mem_cons.mp hmem with rfl | hmem
        · exact Or.inl rfl
        · refine Or.inr ⟨hmem, ?_⟩
          intro r2 hr2 hle
          exact hcond r2 (List.mem_cons_of_mem prevTop hr2) hle

/-- Characterization of keepTopMatchesOnly: a result is kept exactly when
it is in the list and carries the top weight among the results sharing its
LeftId. -/
theorem mem_keepTopMatchesOnly {l : List CompareResult} {r : CompareResult} :
    r ∈ keepTopMatchesOnly l ↔
      r ∈ l ∧ ∀ r2 ∈ l, r2.LeftId = r.LeftId → r2.Weight ≤ r.Weight := by
  unfold keepTopMatchesOnly
  cases heq : sortTop l with
  | nil =>
    have hl : l = [] := by
      have hp := sortTop_perm l
      rw [heq] at hp
      exact hp.symm.eq_nil
    rw [hl]
    simp
  | cons x rest =>
    have hsorted : List.Pairwise leTop (x :: rest) := heq ▸ sortTop_sorted l
    have hmemiff : ∀ a : CompareResult, a ∈ l ↔ a ∈ x :: rest := by
      intro a
      rw [← heq, mem_sortTop]
    rw [List.mem_cons, keepTopAux_mem hsorted]
    constructor
    · rintro (rfl | ⟨hmem, hcond⟩)
      · refine ⟨(hmemiff r).mpr (List.mem_cons_self r rest), ?_⟩
        intro r2 hr2 hle
        rcases List.mem_cons.mp ((hmemiff r2).mp hr2) with rfl | hr2
        · exact le_refl _
        · exact leTop_same_left ((List.pairwise_cons.mp hsorted).1 r2 hr2) hle
      · refine ⟨(hmemiff r).mpr (List.mem_cons_of_mem x hmem), ?_⟩
        intro r2 hr2 hle
        exact hcond r2 ((hmemiff r2).mp hr2) hle
    · rintro ⟨hmem, hcond⟩
      rcases List.mem_cons.mp ((hmemiff r).mp hmem) with rfl | hmem2
      · exact Or.inl rfl
      · refine Or.inr ⟨hmem2, ?_⟩
        intro r2 hr2 hle
        exact hcond r2 ((hmemiff r2).mpr hr2) hle

theorem leLR_left_le {a b : CompareResult} (h : leLR a b) :
    a.LeftId ≤ b.LeftId := by
  rcases h with h | ⟨h, _⟩
  · exact Nat.le_of_lt h
  · exact Nat.le_of_eq h

theorem countLeft_nil (i : Nat) : countLeft [] i = 0 := rfl

theorem countLeft_cons (b : CompareResult) (t : List CompareResult) (i : Nat) :
    countLeft (b :: t) i = countLeft t i + (if b.LeftId = i then 1 else 0) := by
  simp [countLeft, List.countP_cons]

theorem countLeft_eq_zero {l : List CompareResult} {i : Nat} :
    countLeft l i = 0 ↔ ∀ r ∈ l, r.LeftId ≠ i := by
  simp [countLeft, List.countP_eq_zero]

theorem countLeft_pos_of_mem {l : List CompareResult} {r : CompareResult}
    (h : r ∈ l) : 1 ≤ countLeft l r.LeftId := by
  have hpos : 0 < List.countP (fun x => x.LeftId == r.LeftId) l :=
    List.countP_pos_iff.mpr ⟨r, h, by simp⟩
  simpa [countLeft] using hpos

theorem countLeft_perm {l1 l2 : List CompareResult} (h : List.Perm l1 l2)
    (i : Nat) : countLeft l1 i = countLeft l2 i := by
  unfold countLeft
  exact h.countP_eq _

/-- Membership in the getUniqueMatchItems walk over a ByLeftRight-sorted
tail: either the pending element is emitted (sole member of its group) or
a later element whose LeftId occurs exactly once is. -/
theorem getUniqueAux_mem {prevResult : CompareResult} {rest : List CompareResult}
    (hs : List.Pairwise leLR (prevResult :: rest)) {n : Nat} (hn : 1 ≤ n)
    {r : CompareResult} :
    r ∈ getUniqueAux prevResult n rest ↔
      (n = 1 ∧ countLeft rest prevResult.LeftId = 0 ∧ r = prevResult) ∨
      (r ∈ rest ∧ prevResult.LeftId ≠ r.LeftId ∧ countLeft rest r.LeftId = 1) := by
  induction rest generalizing prevResult n with
  | nil =>
    simp only [getUniqueAux, countLeft_nil]
    by_cases h1 : n = 1
    · simp [h1]
    · simp [h1]
  | cons b t ih =>
    have hpb : leLR prevResult b := (List.pairwise_cons.mp hs).1 b (List.mem_cons_self b t)
    have hpt : ∀ x ∈ t, leLR prevResult x := fun x hx =>
      (List.pairwise_cons.mp hs).1 x (List.mem_cons_of_mem b hx)
    have hsbt : List.Pairwise leLR (b :: t) := (List.pairwise_cons.mp hs).2
    have hbt : ∀ x ∈ t, leLR b x := (List.pairwise_cons.mp hsbt).1
    have hspt : List.Pairwise leLR (prevResult :: t) :=
      List.pairwise_cons.mpr ⟨hpt, (List.pairwise_cons.mp hsbt).2⟩
    by_cases hb : b.LeftId = prevResult.LeftId
    · simp only [getUniqueAux, if_pos hb]
      rw [ih hspt (Nat.le_succ_of_le hn)]
      constructor
      · rintro (⟨h1, _, _⟩ | ⟨hmem, hne, hcount⟩)
        · omega
        · refine Or.inr ⟨List.mem_cons_of_mem b hmem, hne, ?_⟩
          rw [countLeft_cons, if_neg (by omega)]
          exact hcount
      · rintro (⟨h1, hcount, rfl⟩ | ⟨hmem, hne, hcount⟩)
        · rw [countLeft_cons, if_pos hb] at hcount
          omega
        · rcases List.mem_cons.mp hmem with rfl | hmem
          · exact absurd hb.symm (by omega)
          · refine Or.inr ⟨hmem, hne, ?_⟩
            rw [countLeft_cons, if_neg (by omega)] at hcount
            exact hcount
    · have hplt : prevResult.LeftId < b.LeftId :=
        lt_of_le_of_ne (leLR_left_le hpb) (fun he => hb he.symm)
      have htgt : ∀ x ∈ t, prevResult.LeftId < x.LeftId := fun x hx =>
        lt_of_lt_of_le hplt (leLR_left_le (hbt x hx))
      have hcp : countLeft (b :: t) prevResult.LeftId = 0 := by
        rw [countLeft_eq_zero]
        intro x hx
        rcases List.mem_cons.mp hx with rfl | hx
        · omega
        · exact fun he => absurd he (by have := htgt x hx; omega)
      simp only [getUniqueAux, if_neg hb]
      rw [List.mem_append, ih hsbt (le_refl 1)]
      constructor
      · rintro (hpr | (⟨_, hcount, rfl⟩ | ⟨hmem, hne, hcount⟩))
        · split at hpr
          · rename_i h1
            simp at hpr
            exact Or.inl ⟨h1, hcp ▸ rfl, hpr⟩
          · simp at hpr
        · refine Or.inr ⟨List.mem_cons_self r t, (by omega), ?_⟩
          rw [countLeft_cons, if_pos rfl]
          omega
        · refine Or.inr ⟨List.mem_cons_of_mem b hmem, (by have := htgt r hmem; omega), ?_⟩
          rw [countLeft_cons, if_neg (by omega)]
          exact hcount
      · rintro (⟨h1, _, rfl⟩ | ⟨hmem, hne, hcount⟩)
        · refine Or.inl ?_
          rw [if_pos h1]
          exact List.mem_cons_self r []
        · rcases List.mem_cons.mp hmem with rfl | hmem
          · rw [countLeft_cons, if_pos rfl] at hcount
            refine Or.inr (Or.inl ⟨rfl, (by omega), rfl⟩)
          · by_cases hrb : b.LeftId = r.LeftId
            · rw [countLeft_cons, if_pos hrb] at hcount
              have := countLeft_pos_of_mem hmem
              omega
            · rw [countLeft_cons, if_neg hrb] at hcount
              exact Or.inr (Or.inr ⟨hmem, hrb, by omega⟩)

/-- Characterization of getUniqueMatchItems: a result is emitted exactly
when it is in the list and no other occurrence of its LeftId is. -/
theorem mem_getUniqueMatchItems {l : List CompareResult} {r : CompareResult} :
    r ∈ getUniqueMatchItems l ↔ r ∈ l ∧ countLeft l r.LeftId = 1 := by
  unfold getUniqueMatchItems
  cases heq : sortLR l with
  | nil =>
    have hl : l = [] := by
      have hp := sortLR_perm l
      rw [heq] at hp
      exact hp.symm.eq_nil
    rw [hl]
    simp
  | cons x rest =>
    have hsorted : List.Pairwise leLR (x :: rest) := heq ▸ sortLR_sorted l
    have hperm : List.Perm l (x :: rest) := by
      rw [← heq]
      exact (sortLR_perm l).symm
    have hcnt : ∀ i, countLeft l i = countLeft (x :: rest) i := fun i =>
      countLeft_perm hperm i
    rw [getUniqueAux_mem hsorted (le_refl 1)]
    constructor
    · rintro (⟨_, hcount, rfl⟩ | ⟨hmem, hne, hcount⟩)
      · refine ⟨hperm.mem_iff.mpr (List.mem_cons_self r rest), ?_⟩
        rw [hcnt, countLeft_cons, if_pos rfl]
        omega
      · refine ⟨hperm.mem_iff.mpr (List.mem_cons_of_mem x hmem), ?_⟩
        rw [hcnt, countLeft_cons, if_neg hne]
        omega
    · rintro ⟨hmem, hcount⟩
      rw [hcnt, countLeft_cons] at hcount
      rcases List.mem_cons.mp (hperm.mem_iff.mp hmem) with rfl | hmem2
      · rw [if_pos rfl] at hcount
        refine Or.inl ⟨rfl, (by omega), rfl⟩
      · have h1 := countLeft_pos_of_mem hmem2
        by_cases hxr : x.LeftId = r.LeftId
        · rw [if_pos hxr] at hcount
          omega
        · rw [if_neg hxr] at hcount
          exact Or.inr ⟨hmem2, hxr, by omega⟩

theorem getUniqueAux_pairwise {prevResult : CompareResult}
    {rest : List CompareResult} (hs : List.Pairwise leLR (prevResult :: rest))
    (n : Nat) :
    List.Pairwise (fun a b : CompareResult => a.LeftId < b.LeftId)
      (getUniqueAux prevResult n rest) := by
  induction rest generalizing prevResult n with
  | nil =>
    simp only [getUniqueAux]
    split
    · simp
    · simp
  | cons b t ih =>
    have hpb : leLR prevResult b := (List.pairwise_cons.mp hs).1 b (List.mem_cons_self b t)
    have hsbt : List.Pairwise leLR (b :: t) := (List.pairwise_cons.mp hs).2
    have hbt : ∀ x ∈ t, leLR b x := (List.pairwise_cons.mp hsbt).1
    have hspt : List.Pairwise leLR (prevResult :: t) :=
      List.pairwise_cons.mpr ⟨fun x hx =>
        (List.pairwise_cons.mp hs).1 x (List.mem_cons_of_mem b hx),
        (List.pairwise_cons.mp hsbt).2⟩
    simp only [getUniqueAux]
    split
    · exact ih hspt (n + 1)
    · rename_i hb
      have hplt : prevResult.LeftId < b.LeftId :=
        lt_of_le_of_ne (leLR_left_le hpb) (fun he => hb he.symm)
      refine List.pairwise_append.mpr ⟨?_, ih hsbt 1, ?_⟩
      · split
        · simp
        · simp
      · intro a ha c hc
        have ha2 : a = prevResult := by
          split at ha
          · simpa using ha
          · simp at ha
        have hc2 : c = b ∨ c ∈ t := getUniqueAux_mem_cases hc
        rw [ha2]
        rcases hc2 with rfl | hc2
        · exact hplt
        · exact lt_of_lt_of_le hplt (leLR_left_le (hbt c hc2))

theorem getUniqueMatchItems_pairwise (l : List CompareResult) :
    List.Pairwise (fun a b : CompareResult => a.LeftId < b.LeftId)
      (getUniqueMatchItems l) := by
  unfold getUniqueMatchItems
  cases heq : sortLR l with
  | nil => simp
  | cons x rest =>
    have hsorted : List.Pairwise leLR (x :: rest) := heq ▸ sortLR_sorted l
    exact getUniqueAux_pairwise hsorted 1

theorem getUniqueMatchItems_nodup (l : List CompareResult) :
    (getUniqueMatchItems l).Nodup :=
  (getUniqueMatchItems_pairwise l).imp (fun h => by
    intro he
    rw [he] at h
    exact lt_irrefl _ h)

theorem countLeft_reverseResults (l : List CompareResult) (i : Nat) :
    countLeft (reverseResults l) i = countRight l i := by
  unfold countLeft countRight reverseResults
  rw [List.countP_map]
  rfl

theorem countRight_reverseResults (l : List CompareResult) (i : Nat) :
    countRight (reverseResults l) i = countLeft l i := by
  unfold countLeft countRight reverseResults
  rw [List.countP_map]
  rfl

/-- A list with two distinct members satisfying a predicate has at least
two elements counted by it. -/
theorem two_le_countP_of_two_mem {α : Type} [DecidableEq α] {l : List α}
    {a b : α} (p : α → Bool) (ha : a ∈ l) (hb : b ∈ l) (hne : a ≠ b)
    (hpa : p a) (hpb : p b) : 2 ≤ l.countP p := by
  have haf : a ∈ l.filter p := List.mem_filter.mpr ⟨ha, hpa⟩
  have hbf : b ∈ l.filter p := List.mem_filter.mpr ⟨hb, hpb⟩
  have hbe : b ∈ (l.filter p).erase a := (List.mem_erase_of_ne hne.symm).mpr hbf
  have h1 : 1 ≤ ((l.filter p).erase a).length := List.length_pos_of_mem hbe
  have h2 : ((l.filter p).erase a).length = (l.filter p).length - 1 :=
    List.length_erase_of_mem haf
  rw [← List.countP_eq_length_filter]  at *
  omega

theorem getMaxWeight_le_aux (l : List CompareResult) :
    ∀ init : Int, init ≤ l.foldl (fun m r => if m < r.Weight then r.Weight else m) init := by
  induction l with
  | nil => intro init; exact le_refl init
  | cons h t ih =>
    intro init
    refine le_trans ?_ (ih (if init < h.Weight then h.Weight else init))
    split
    · rename_i hlt; exact le_of_lt hlt
    · exact le_refl init

theorem weight_le_fold {l : List CompareResult} :
    ∀ init : Int, ∀ r ∈ l,
      r.Weight ≤ l.foldl (fun m x => if m < x.Weight then x.Weight else m) init := by
  induction l with
  | nil => intro init r h; simp at h
  | cons b t ih =>
    intro init r h
    rcases List.mem_cons.mp h with rfl | h2
    · show r.Weight ≤ t.foldl _ (if init < r.Weight then r.Weight else init)
      refine le_trans ?_ (getMaxWeight_le_aux t _)
      split
      · exact le_refl _
      · rename_i hnl; exact le_of_not_lt hnl
    · exact ih _ r h2

/-- getMaxWeight bounds every weight in the list. -/
theorem weight_le_getMaxWeight {l : List CompareResult} {r : CompareResult}
    (h : r ∈ l) : r.Weight ≤ getMaxWeight l :=
  weight_le_fold 0 r h

theorem getMaxWeight_nonneg (l : List CompareResult) : 0 ≤ getMaxWeight l := by
  unfold getMaxWeight
  exact getMaxWeight_le_aux l 0

/-- Strict lexicographic order on id pairs. -/
def ltIds (a b : CompareResult) : Prop :=
  a.LeftId < b.LeftId ∨ (a.LeftId = b.LeftId ∧ a.RightId < b.RightId)

theorem ids_eq_iff {a b : CompareResult} :
    a.ids = b.ids ↔ a.LeftId = b.LeftId ∧ a.RightId = b.RightId := by
  simp [CompareResult.ids]

theorem areIdsEqual_iff {a b : CompareResult} :
    a.areIdsEqual b = true ↔ a.ids = b.ids := by
  simp [CompareResult.areIdsEqual, ids_eq_iff]

theorem leLR_ne_ltIds {a b : CompareResult} (h : leLR a b)
    (hne : a.ids ≠ b.ids) : ltIds a b := by
  have hne2 : ¬(a.LeftId = b.LeftId ∧ a.RightId = b.RightId) :=
    fun hh => hne (ids_eq_iff.mpr hh)
  unfold leLR at h
  unfold ltIds
  omega

theorem ltIds_le_trans {a b c : CompareResult} (h1 : ltIds a b)
    (h2 : leLR b c) : ltIds a c := by
  unfold ltIds at *
  unfold leLR at h2
  omega

theorem ltIds_congr_right {a c d : CompareResult} (h : c.ids = d.ids) :
    ltIds a c ↔ ltIds a d := by
  rw [ids_eq_iff] at h
  unfold ltIds
  rw [h.1, h.2]

theorem ltIds_asymm_ne {a b : CompareResult} (h : ltIds a b) : a.ids ≠ b.ids := by
  intro he
  have he2 := ids_eq_iff.mp he
  unfold ltIds at h
  omega

/-- Under sorted input, the emissions of the summation walk carry strictly
increasing id pairs. -/
theorem sumAux_pairwise {splitMatch : Bool} {maxMatchValue : Int} :
    ∀ (rest : List CompareResult) (prevTotal : CompareResult),
      (∀ x ∈ rest, leLR prevTotal x) → List.Pairwise leLR rest →
      List.Pairwise ltIds (sumAux splitMatch maxMatchValue prevTotal rest) := by
  intro rest
  induction rest with
  | nil =>
    intro prevTotal _ _
    simp only [sumAux]
    split
    · simp
    · simp
  | cons b t ih =>
    intro prevTotal hall hsr
    have hpb : leLR prevTotal b := hall b (List.mem_cons_self b t)
    have hbt : ∀ x ∈ t, leLR b x := (List.pairwise_cons.mp hsr).1
    have hst : List.Pairwise leLR t := (List.pairwise_cons.mp hsr).2
    simp only [sumAux]
    split
    · rename_i heq
      have hids : prevTotal.ids = b.ids := areIdsEqual_iff.mp heq
      refine ih _ ?_ hst
      intro x hx
      have hbx := hbt x hx
      rcases hbx with hbx | ⟨hbl, hbr⟩
      · exact Or.inl (by rw [ids_eq_iff] at hids; simpa [hids.1] using hbx)
      · rw [ids_eq_iff] at hids
        exact Or.inr ⟨by simpa [hids.1] using hbl, by simpa [hids.2] using hbr⟩
    · rename_i hne
      have hids : prevTotal.ids ≠ b.ids := fun h => hne (areIdsEqual_iff.mpr h)
      have hlt : ltIds prevTotal b := leLR_ne_ltIds hpb hids
      have hrec := ih b hbt hst
      refine List.pairwise_append.mpr ⟨?_, hrec, ?_⟩
      · split
        · simp
        · simp
      · intro a ha c hc
        have ha2 : a = prevTotal := by
          split at ha
          · simp at ha
          · simpa using ha
        rcases sumAux_ids_cases hc with hcb | ⟨r2, hr2, hcid⟩
        · rw [ha2, ← ltIds_congr_right hcb] at *
          exact hlt
        · rw [ha2, ltIds_congr_right hcid]
          exact ltIds_le_trans hlt (hbt r2 hr2)

/-- The summed result list never repeats an id pair. -/
theorem sum_pairwise_ltIds (splitMatch : Bool) (maxMatchValue : Int)
    (l : List CompareResult) :
    List.Pairwise ltIds (sumMatchWeightValues splitMatch maxMatchValue l) := by
  unfold sumMatchWeightValues
  split
  · rename_i hlen
    match l with
    | [] => simp
    | [x] => simp
    | x :: y :: t => simp at hlen
  · split
    · simp
    · rename_i x rest heq
      have hsorted : List.Pairwise leLR (x :: rest) := heq ▸ sortLR_sorted l
      exact sumAux_pairwise rest x (List.pairwise_cons.mp hsorted).1
        (List.pairwise_cons.mp hsorted).2

theorem sum_idPairs_nodup (splitMatch : Bool) (maxMatchValue : Int)
    (l : List CompareResult) :
    (idPairs (sumMatchWeightValues splitMatch maxMatchValue l)).Nodup := by
  have hp := sum_pairwise_ltIds splitMatch maxMatchValue l
  unfold idPairs
  exact List.Pairwise.map _ (fun a b h => ltIds_asymm_ne h) hp

/-- Without the split-match gate and with no repeated id pair, the
summation walk emits every element unchanged. -/
theorem sumAux_of_pairwise_ne :
    ∀ (rest : List CompareResult) (prevTotal : CompareResult),
      List.Pairwise (fun a b : CompareResult => a.ids ≠ b.ids) (prevTotal :: rest) →
      sumAux false 0 prevTotal rest = prevTotal :: rest := by
  intro rest
  induction rest with
  | nil => intro prevTotal _; simp [sumAux]
  | cons b t ih =>
    intro prevTotal hp
    have hne : prevTotal.ids ≠ b.ids :=
      (List.pairwise_cons.mp hp).1 b (List.mem_cons_self b t)
    have hb : ¬(prevTotal.areIdsEqual b = true) := fun h => hne (areIdsEqual_iff.mp h)
    simp only [sumAux, Bool.false_and, if_neg hb]
    simp only [Bool.false_eq_true, if_false]
    rw [ih b (List.pairwise_cons.mp hp).2]
    rfl

/-- On a list with no repeated id pair, summation without the split-match
gate only reorders the list. -/
theorem sum_nodup_perm {l : List CompareResult} (h : (idPairs l).Nodup) :
    List.Perm (sumMatchWeightValues false 0 l) l := by
  unfold sumMatchWeightValues
  split
  · exact List.Perm.refl l
  · cases heq : sortLR l with
    | nil =>
      have hl : l = [] := by
        have hp := sortLR_perm l
        rw [heq] at hp
        exact hp.symm.eq_nil
      simp [hl]
    | cons x rest =>
      have hnods : (idPairs (sortLR l)).Nodup := by
        unfold idPairs
        exact ((sortLR_perm l).map CompareResult.ids).nodup_iff.mpr h
      have hpne : List.Pairwise (fun a b : CompareResult => a.ids ≠ b.ids) (x :: rest) := by
        rw [← heq]
        unfold idPairs at hnods
        exact (List.pairwise_map.mp hnods)
      show List.Perm (sumAux false 0 x rest) l
      rw [sumAux_of_pairwise_ne rest x hpne, ← heq]
      exact sortLR_perm l

theorem compareCC_eq_iff {a b : CompareResult} :
    compareCompareResults a b = Ordering.eq ↔ a.ids = b.ids := by
  unfold compareCompareResults
  rw [ids_eq_iff]
  split_ifs with h1 h2 h3 h4 <;> simp <;> omega

theorem compareCC_lt_iff {a b : CompareResult} :
    compareCompareResults a b = Ordering.lt ↔ ltIds a b := by
  unfold compareCompareResults
  unfold ltIds
  split_ifs with h1 h2 h3 h4 <;> simp <;> omega

theorem compareCC_gt_iff {a b : CompareResult} :
    compareCompareResults a b = Ordering.gt ↔ ltIds b a := by
  unfold compareCompareResults
  unfold ltIds
  split_ifs with h1 h2 h3 h4 <;> simp <;> omega

theorem mem_idPairs {l : List CompareResult} {p : Nat × Nat} :
    p ∈ idPairs l ↔ ∃ x ∈ l, p = x.ids := by
  unfold idPairs
  rw [List.mem_map]
  constructor
  · rintro ⟨x, hx, rfl⟩; exact ⟨x, hx, rfl⟩
  · rintro ⟨x, hx, rfl⟩; exact ⟨x, hx, rfl⟩

theorem ltIds_le_asymm {a b : CompareResult} (h1 : ltIds a b) (h2 : leLR b a) :
    False := by
  unfold ltIds at h1
  unfold leLR at h2
  omega

theorem dropLtC_sublist (c : CompareResult) :
    ∀ sgl : List CompareResult, (dropLtC c sgl).Sublist sgl := by
  intro sgl
  induction sgl with
  | nil => simp [dropLtC]
  | cons s ss ih =>
    simp only [dropLtC]
    cases hcmp : compareCompareResults c s with
    | gt => exact ih.trans (List.sublist_cons_self s ss)
    | lt => exact List.Sublist.refl _
    | eq => exact List.Sublist.refl _

theorem dropLtC_cases (c : CompareResult) :
    ∀ sgl : List CompareResult, ∀ x ∈ sgl, x ∈ dropLtC c sgl ∨ ltIds x c := by
  intro sgl
  induction sgl with
  | nil => intro x hx; simp at hx
  | cons s ss ih =>
    intro x hx
    simp only [dropLtC]
    cases hcmp : compareCompareResults c s with
    | gt =>
      rcases List.mem_cons.mp hx with rfl | hx2
      · exact Or.inr (compareCC_gt_iff.mp hcmp)
      · exact ih x hx2
    | lt => exact Or.inl hx
    | eq => exact Or.inl hx

theorem dropLtC_head (c : CompareResult) :
    ∀ (sgl : List CompareResult) {s : CompareResult} {ss : List CompareResult},
      dropLtC c sgl = s :: ss → compareCompareResults c s ≠ Ordering.gt := by
  intro sgl
  induction sgl with
  | nil => intro s ss h; simp [dropLtC] at h
  | cons a t ih =>
    intro s ss h
    simp only [dropLtC] at h
    cases hcmp : compareCompareResults c a with
    | gt =>
      rw [hcmp] at h
      exact ih h
    | lt =>
      rw [hcmp] at h
      injection h with h1 h2
      rw [← h1, hcmp]
      simp
    | eq =>
      rw [hcmp] at h
      injection h with h1 h2
      rw [← h1, hcmp]
      simp

theorem trimAux_nil : ∀ cur : List CompareResult, trimAux cur [] = cur := by
  intro cur
  induction cur with
  | nil => simp [trimAux]
  | cons c cs ih =>
    simp only [trimAux, dropLtC]
    rw [ih]

/-- Membership in the trim merge walk: with both lists sorted and free of
repeated id pairs, an element survives exactly when its id pair is not
among the removed ones. -/
theorem trimAux_mem {r : CompareResult} :
    ∀ (cur sgl : List CompareResult),
      List.Pairwise leLR cur → List.Pairwise leLR sgl →
      (idPairs cur).Nodup → (idPairs sgl).Nodup →
      (r ∈ trimAux cur sgl ↔ r ∈ cur ∧ r.ids ∉ idPairs sgl) := by
  intro cur
  induction cur with
  | nil => intro sgl _ _ _ _; simp [trimAux]
  | cons c cs ih =>
    intro sgl hc hg hnc hns
    have hccs : ∀ x ∈ cs, leLR c x := (List.pairwise_cons.mp hc).1
    have hccs2 : List.Pairwise leLR cs := (List.pairwise_cons.mp hc).2
    have hncs : (idPairs cs).Nodup := by
      unfold idPairs at hnc ⊢
      exact (List.nodup_cons.mp hnc).2
    have hcids : c.ids ∉ idPairs cs := by
      unfold idPairs at hnc
      exact (List.nodup_cons.mp hnc).1
    have hcc : leLR c c := Or.inr ⟨rfl, le_refl _⟩
    have hequiv : ∀ x : CompareResult, leLR c x →
        (x.ids ∉ idPairs sgl ↔ x.ids ∉ idPairs (dropLtC c sgl)) := by
      intro x hcx
      constructor
      · intro hni hin
        refine hni ?_
        rcases mem_idPairs.mp hin with ⟨y, hy, hye⟩
        exact mem_idPairs.mpr ⟨y, (dropLtC_sublist c sgl).mem hy, hye⟩
      · intro hni hin
        rcases mem_idPairs.mp hin with ⟨y, hy, hye⟩
        rcases dropLtC_cases c sgl y hy with hyD | hylt
        · exact hni (mem_idPairs.mpr ⟨y, hyD, hye⟩)
        · have hxlt : ltIds x c := by
            rw [ids_eq_iff] at hye
            unfold ltIds at hylt ⊢
            omega
          exact ltIds_le_asymm hxlt hcx
    have hgD : List.Pairwise leLR (dropLtC c sgl) := hg.sublist (dropLtC_sublist c sgl)
    have hnsD : (idPairs (dropLtC c sgl)).Nodup :=
      hns.sublist ((dropLtC_sublist c sgl).map CompareResult.ids)
    simp only [trimAux]
    cases hd : dropLtC c sgl with
    | nil =>
      dsimp only
      rw [trimAux_nil]
      constructor
      · intro hin
        refine ⟨hin, ?_⟩
        have hcr : leLR c r := by
          rcases List.mem_cons.mp hin with rfl | h2
          · exact hcc
          · exact hccs r h2
        refine (hequiv r hcr).mpr ?_
        rw [hd]
        simp [idPairs]
      · exact fun h => h.1
    | cons s ss =>
      rw [hd] at hgD hnsD
      have hcs_ne : compareCompareResults c s ≠ Ordering.gt := dropLtC_head c sgl hd
      have hsmem : s ∈ sgl := (hd ▸ dropLtC_sublist c sgl).mem (List.mem_cons_self s ss)
      have hsss : ∀ y ∈ ss, leLR s y := (List.pairwise_cons.mp hgD).1
      have hgss : List.Pairwise leLR ss := (List.pairwise_cons.mp hgD).2
      have hnss : (idPairs ss).Nodup := by
        unfold idPairs at hnsD ⊢
        exact (List.nodup_cons.mp hnsD).2
      have hsids : s.ids ∉ idPairs ss := by
        unfold idPairs at hnsD
        exact (List.nodup_cons.mp hnsD).1
      dsimp only
      cases hcmp : compareCompareResults c s with
      | gt => exact absurd hcmp hcs_ne
      | lt =>
        dsimp only
        have hlt : ltIds c s := compareCC_lt_iff.mp hcmp
        have hcD : c.ids ∉ idPairs (s :: ss) := by
          intro hin
          rcases mem_idPairs.mp hin with ⟨y, hy, hye⟩
          rcases List.mem_cons.mp hy with rfl | hy2
          · exact ltIds_asymm_ne hlt hye
          · exact ltIds_asymm_ne (ltIds_le_trans hlt (hsss y hy2)) hye
        have hiff := ih (s :: ss) hccs2 hgD hncs hnsD
        constructor
        · intro hin
          rcases List.mem_cons.mp hin with rfl | hin2
          · refine ⟨List.mem_cons_self r cs, ?_⟩
            exact (hequiv r hcc).mpr (hd ▸ hcD)
          · rcases hiff.mp hin2 with ⟨hmem, hnid⟩
            refine ⟨List.mem_cons_of_mem c hmem, ?_⟩
            exact (hequiv r (hccs r hmem)).mpr (hd ▸ hnid)
        · rintro ⟨hmem, hnid⟩
          rcases List.mem_cons.mp hmem with rfl | hmem2
          · exact List.mem_cons_self r _
          · refine List.mem_cons_of_mem c (hiff.mpr ⟨hmem2, ?_⟩)
            have := (hequiv r (hccs r hmem2)).mp hnid
            rw [hd] at this
            exact this
      | eq =>
        dsimp only
        have heqi : c.ids = s.ids := compareCC_eq_iff.mp hcmp
        have hiff := ih ss hccs2 hgss hncs hnss
        constructor
        · intro hin
          rcases hiff.mp hin with ⟨hmem, hnid⟩
          refine ⟨List.mem_cons_of_mem c hmem, ?_⟩
          refine (hequiv r (hccs r hmem)).mpr ?_
          rw [hd]
          intro hin2
          rcases mem_idPairs.mp hin2 with ⟨y, hy, hye⟩
          rcases List.mem_cons.mp hy with rfl | hy2
          · refine hcids ?_
            rw [ids_eq_iff] at hye heqi
            refine mem_idPairs.mpr ⟨r, hmem, ?_⟩
            rw [ids_eq_iff]
            constructor <;> omega
          · exact hnid (mem_idPairs.mpr ⟨y, hy2, hye⟩)
        · rintro ⟨hmem, hnid⟩
          rcases List.mem_cons.mp hmem with rfl | hmem2
          · refine absurd (mem_idPairs.mpr ⟨s, hsmem, heqi⟩) hnid
          · refine hiff.mpr ⟨hmem2, ?_⟩
            have hD := (hequiv r (hccs r hmem2)).mp hnid
            rw [hd] at hD
            intro hin2
            rcases mem_idPairs.mp hin2 with ⟨y, hy, hye⟩
            exact hD (mem_idPairs.mpr ⟨y, List.mem_cons_of_mem s hy, hye⟩)

/-- The spec-side predicate of §4.4 step 6, first direction: the result
carries the top weight among the candidates of its source. -/
def isTopLeft (l : List CompareResult) (r : CompareResult) : Prop :=
  ∀ r2 ∈ l, r2.LeftId = r.LeftId → r2.Weight ≤ r.Weight

/-- Top weight among the candidates of a target. -/
def isTopRight (l : List CompareResult) (r : CompareResult) : Prop :=
  ∀ r2 ∈ l, r2.RightId = r.RightId → r2.Weight ≤ r.Weight

/-- Survival of the two staged reductions of
reduceBothForwardAndBackward: top weight for the source among all
candidates, and top weight for the target among the candidates that are
top for their source. -/
def survivesReduction (l : List CompareResult) (r : CompareResult) : Prop :=
  isTopLeft l r ∧
    ∀ r2 ∈ l, isTopLeft l r2 → r2.RightId = r.RightId → r2.Weight ≤ r.Weight

instance (l : List CompareResult) (r : CompareResult) : Decidable (isTopLeft l r) := by
  unfold isTopLeft; infer_instance

instance (l : List CompareResult) (r : CompareResult) : Decidable (isTopRight l r) := by
  unfold isTopRight; infer_instance

instance (l : List CompareResult) (r : CompareResult) : Decidable (survivesReduction l r) := by
  unfold survivesReduction; infer_instance

theorem isTopLeft_reverse {l : List CompareResult} {r : CompareResult} :
    isTopLeft (reverseResults l) (CompareResult.mk r.RightId r.LeftId r.Weight) ↔
      isTopRight l r := by
  constructor
  · intro h x hx hxr
    exact h (CompareResult.mk x.RightId x.LeftId x.Weight)
      (mem_reverseResults.mpr hx) hxr
  · intro h x hx hxr
    exact h (CompareResult.mk x.RightId x.LeftId x.Weight)
      (mem_reverseResults.mp hx) hxr

/-- Membership in the forward list after the double reduction. -/
theorem mem_reduceBoth_fst {l : List CompareResult} {r : CompareResult} :
    r ∈ (reduceBothForwardAndBackward l).1 ↔ r ∈ l ∧ survivesReduction l r := by
  unfold reduceBothForwardAndBackward survivesReduction
  rw [mem_reverseResults, mem_keepTopMatchesOnly]
  constructor
  · rintro ⟨hmem, htop⟩
    have hmem2 : r ∈ keepTopMatchesOnly l := mem_reverseResults.mp hmem
    rcases mem_keepTopMatchesOnly.mp hmem2 with ⟨hml, htl⟩
    refine ⟨hml, htl, ?_⟩
    intro r2 hr2 htl2 hre
    have hr2k : r2 ∈ keepTopMatchesOnly l := mem_keepTopMatchesOnly.mpr ⟨hr2, htl2⟩
    exact htop (CompareResult.mk r2.RightId r2.LeftId r2.Weight)
      (mem_reverseResults.mpr hr2k) hre
  · rintro ⟨hml, htl, hsur⟩
    have hmem2 : r ∈ keepTopMatchesOnly l := mem_keepTopMatchesOnly.mpr ⟨hml, htl⟩
    refine ⟨mem_reverseResults.mpr hmem2, ?_⟩
    intro x hx hxr
    have hx2 : CompareResult.mk x.RightId x.LeftId x.Weight ∈ keepTopMatchesOnly l :=
      mem_reverseResults.mp hx
    rcases mem_keepTopMatchesOnly.mp hx2 with ⟨hxl, hxt⟩
    exact hsur (CompareResult.mk x.RightId x.LeftId x.Weight) hxl hxt hxr

theorem reduceBoth_fst_eq_reverse_snd (l : List CompareResult) :
    (reduceBothForwardAndBackward l).1 =
      reverseResults (reduceBothForwardAndBackward l).2 := rfl

theorem reduceBoth_snd_eq_reverse_fst (l : List CompareResult) :
    (reduceBothForwardAndBackward l).2 =
      reverseResults (reduceBothForwardAndBackward l).1 := by
  rw [reduceBoth_fst_eq_reverse_snd, reverseResults_reverseResults]

theorem idPairs_reverseResults (l : List CompareResult) :
    idPairs (reverseResults l) = (idPairs l).map Prod.swap := by
  unfold idPairs reverseResults
  rw [List.map_map, List.map_map]
  rfl

theorem idPairs_reverse_nodup {l : List CompareResult}
    (h : (idPairs l).Nodup) : (idPairs (reverseResults l)).Nodup := by
  rw [idPairs_reverseResults]
  exact h.map (fun a b => by
    intro hab
    simpa [Prod.ext_iff] using (by
      rcases a with ⟨a1, a2⟩
      rcases b with ⟨b1, b2⟩
      simpa [Prod.swap, Prod.ext_iff, and_comm] using hab))

theorem keepTop_idPairs_nodup {l : List CompareResult}
    (h : (idPairs l).Nodup) : (idPairs (keepTopMatchesOnly l)).Nodup := by
  have hsub : (idPairs (keepTopMatchesOnly l)).Sublist (idPairs (sortTop l)) :=
    (keepTopMatchesOnly_sublist_sortTop l).map CompareResult.ids
  have hperm : (idPairs (sortTop l)).Nodup := by
    unfold idPairs
    exact ((sortTop_perm l).map CompareResult.ids).nodup_iff.mpr h
  exact hperm.sublist hsub

theorem reduceBoth_fst_idPairs_nodup {l : List CompareResult}
    (h : (idPairs l).Nodup) :
    (idPairs (reduceBothForwardAndBackward l).1).Nodup := by
  unfold reduceBothForwardAndBackward
  exact idPairs_reverse_nodup (keepTop_idPairs_nodup (idPairs_reverse_nodup
    (keepTop_idPairs_nodup h)))

/-- Membership in the unique top match list: a pair of the reduced forward
list that is the only occurrence of its LeftId and of its RightId there. -/
theorem mem_extract_fst {l : List CompareResult} {r : CompareResult} :
    r ∈ (extractUniqueTopMatch l).1 ↔
      r ∈ (extractUniqueTopMatch l).2 ∧
      countLeft (extractUniqueTopMatch l).2 r.LeftId = 1 ∧
      countRight (extractUniqueTopMatch l).2 r.RightId = 1 := by
  unfold extractUniqueTopMatch
  rw [List.mem_filter, mem_getUniqueMatchItems]
  simp only [decide_eq_true_eq]
  rw [mem_getUniqueMatchItems]
  constructor
  · rintro ⟨⟨hmem, hcl⟩, hrev, hcr⟩
    refine ⟨hmem, hcl, ?_⟩
    rw [reduceBoth_snd_eq_reverse_fst] at hcr
    rw [← countLeft_reverseResults]
    exact hcr
  · rintro ⟨hmem, hcl, hcr⟩
    refine ⟨⟨hmem, hcl⟩, ?_, ?_⟩
    · rw [reduceBoth_snd_eq_reverse_fst]
      exact mem_reverseResults.mpr hmem
    · rw [reduceBoth_snd_eq_reverse_fst, countLeft_reverseResults]
      exact hcr

theorem extract_fst_sublist (l : List CompareResult) :
    ((extractUniqueTopMatch l).1).Sublist
      (getUniqueMatchItems (extractUniqueTopMatch l).2) := by
  unfold extractUniqueTopMatch
  exact List.filter_sublist _

theorem extract_fst_pairwise_lefts (l : List CompareResult) :
    List.Pairwise (fun a b : CompareResult => a.LeftId < b.LeftId)
      (extractUniqueTopMatch l).1 :=
  (getUniqueMatchItems_pairwise _).sublist (extract_fst_sublist l)

theorem extract_fst_nodup (l : List CompareResult) :
    ((extractUniqueTopMatch l).1).Nodup :=
  (getUniqueMatchItems_nodup _).sublist (extract_fst_sublist l)

theorem extract_fst_lefts_nodup (l : List CompareResult) :
    (((extractUniqueTopMatch l).1).map (fun r => r.LeftId)).Nodup := by
  have hp := extract_fst_pairwise_lefts l
  exact List.Pairwise.map _ (fun a b (h : a.LeftId < b.LeftId) => Nat.ne_of_lt h) hp

theorem extract_fst_rights_nodup (l : List CompareResult) :
    (((extractUniqueTopMatch l).1).map (fun r => r.RightId)).Nodup := by
  have hp : List.Pairwise (fun a b : CompareResult => a.RightId ≠ b.RightId)
      (extractUniqueTopMatch l).1 := by
    refine List.Pairwise.imp_of_mem ?_ ((extract_fst_nodup l).imp id)
    intro a b ha hb hne he
    rcases mem_extract_fst.mp ha with ⟨hma, _, hca⟩
    rcases mem_extract_fst.mp hb with ⟨hmb, _, _⟩
    have h2 : 2 ≤ countRight (extractUniqueTopMatch l).2 a.RightId := by
      unfold countRight
      exact two_le_countP_of_two_mem _ hma hmb hne (by simp) (by simp [he])
    omega
  exact List.Pairwise.map _ (fun a b h => h) hp

theorem extract_fst_idPairs_nodup (l : List CompareResult) :
    (idPairs (extractUniqueTopMatch l).1).Nodup := by
  unfold idPairs
  refine List.Pairwise.map _ ?_ (extract_fst_pairwise_lefts l)
  intro a b (h : a.LeftId < b.LeftId) he
  rw [ids_eq_iff] at he
  omega

/-- trimUniqueMatches on duplicate-free inputs removes exactly the unique
match items. -/
theorem mem_trimUniqueMatches {l u : List CompareResult}
    (hnl : (idPairs l).Nodup) (hnu : (idPairs u).Nodup) {r : CompareResult} :
    r ∈ trimUniqueMatches l u ↔ r ∈ l ∧ r.ids ∉ idPairs u := by
  unfold trimUniqueMatches
  have hnl2 : (idPairs (sortLR l)).Nodup := by
    unfold idPairs
    exact ((sortLR_perm l).map CompareResult.ids).nodup_iff.mpr hnl
  have hnu2 : (idPairs (sortLR u)).Nodup := by
    unfold idPairs
    exact ((sortLR_perm u).map CompareResult.ids).nodup_iff.mpr hnu
  rw [trimAux_mem (sortLR l) (sortLR u) (sortLR_sorted l) (sortLR_sorted u) hnl2 hnu2]
  rw [mem_sortLR]
  have hpid : ∀ p : Nat × Nat, p ∈ idPairs (sortLR u) ↔ p ∈ idPairs u := fun p =>
    ((sortLR_perm u).map CompareResult.ids).mem_iff
  rw [not_iff_not.mpr (hpid r.ids)]

theorem processMatches_fst_ids {splitMatch : Bool} {maxMatchValue : Int}
    {l : List CompareResult} {r : CompareResult}
    (h : r ∈ (ProcessMatches splitMatch maxMatchValue l).1) :
    ∃ r2 ∈ l, r.ids = r2.ids := by
  unfold ProcessMatches at h
  split at h
  · simp at h
  · rcases mem_extract_fst.mp h with ⟨hmem, _, _⟩
    rcases mem_reduceBoth_fst.mp hmem with ⟨hsum, _⟩
    exact sumMatchWeightValues_ids_mem hsum

theorem processMatches_snd_mem {splitMatch : Bool} {maxMatchValue : Int}
    {l : List CompareResult} {r : CompareResult} :
    r ∈ (ProcessMatches splitMatch maxMatchValue l).2 ↔
      r ∈ (extractUniqueTopMatch (sumMatchWeightValues splitMatch maxMatchValue l)).2 ∧
      r.ids ∉ idPairs (ProcessMatches splitMatch maxMatchValue l).1 ∧
      l.isEmpty = false := by
  unfold ProcessMatches
  split
  · rename_i hemp
    simp [hemp]
  · rename_i hemp
    have hnl : (idPairs (extractUniqueTopMatch
        (sumMatchWeightValues splitMatch maxMatchValue l)).2).Nodup := by
      show (idPairs (reduceBothForwardAndBackward _).1).Nodup
      exact reduceBoth_fst_idPairs_nodup (sum_idPairs_nodup _ _ _)
    rw [mem_trimUniqueMatches hnl (extract_fst_idPairs_nodup _)]
    simp only [Bool.not_eq_true]
    constructor
    · rintro ⟨h1, h2⟩
      exact ⟨h1, h2, by simpa using hemp⟩
    · rintro ⟨h1, h2, _⟩
      exact ⟨h1, h2⟩

theorem processMatches_snd_ids {splitMatch : Bool} {maxMatchValue : Int}
    {l : List CompareResult} {r : CompareResult}
    (h : r ∈ (ProcessMatches splitMatch maxMatchValue l).2) :
    ∃ r2 ∈ l, r.ids = r2.ids := by
  rcases processMatches_snd_mem.mp h with ⟨hmem, _, _⟩
  rcases mem_reduceBoth_fst.mp hmem with ⟨hsum, _⟩
  exact sumMatchWeightValues_ids_mem hsum

theorem processMatches_fst_lefts_nodup (splitMatch : Bool) (maxMatchValue : Int)
    (l : List CompareResult) :
    (((ProcessMatches splitMatch maxMatchValue l).1).map (fun r => r.LeftId)).Nodup := by
  unfold ProcessMatches
  split
  · simp
  · exact extract_fst_lefts_nodup _

theorem processMatches_fst_rights_nodup (splitMatch : Bool) (maxMatchValue : Int)
    (l : List CompareResult) :
    (((ProcessMatches splitMatch maxMatchValue l).1).map (fun r => r.RightId)).Nodup := by
  unfold ProcessMatches
  split
  · simp
  · exact extract_fst_rights_nodup _

/-- A trimmed leftover result never shares a source or a target with a
returned unique top match. -/
theorem processMatches_disjoint {splitMatch : Bool} {maxMatchValue : Int}
    {l : List CompareResult} {r u : CompareResult}
    (hr : r ∈ (ProcessMatches splitMatch maxMatchValue l).2)
    (hu : u ∈ (ProcessMatches splitMatch maxMatchValue l).1) :
    r.LeftId ≠ u.LeftId ∧ r.RightId ≠ u.RightId := by
  rcases processMatches_snd_mem.mp hr with ⟨hrf, hrn, hne⟩
  have hu2 : u ∈ (extractUniqueTopMatch
      (sumMatchWeightValues splitMatch maxMatchValue l)).1 := by
    unfold ProcessMatches at hu
    split at hu
    · simp at hu
    · exact hu
  rcases mem_extract_fst.mp hu2 with ⟨huf, hcl, hcr⟩
  have hune : r ≠ u := by
    intro he
    refine hrn ?_
    have : u.ids ∈ idPairs (ProcessMatches splitMatch maxMatchValue l).1 := by
      unfold ProcessMatches
      rw [if_neg (by simpa using hne)]
      exact List.mem_map_of_mem CompareResult.ids hu2
    rw [he]
    exact this
  constructor
  · intro he
    have h2 : 2 ≤ countLeft (extractUniqueTopMatch
        (sumMatchWeightValues splitMatch maxMatchValue l)).2 u.LeftId := by
      unfold countLeft
      exact two_le_countP_of_two_mem _ hrf huf hune (by simp [he]) (by simp)
    omega
  · intro he
    have h2 : 2 ≤ countRight (extractUniqueTopMatch
        (sumMatchWeightValues splitMatch maxMatchValue l)).2 u.RightId := by
      unfold countRight
      exact two_le_countP_of_two_mem _ hrf huf hune (by simp [he]) (by simp)
    omega

/-!
Invariants of the tier loop of RunIndexRuleAll, leading to the global
one-to-one property of the matched map.
-/

/-- Every result emitted by a rule pairs a currently remaining source
index with a currently remaining target index. -/
theorem runIndexRule_mem {ρ κ : Type} [DecidableEq κ] {indexRule : IndexRule ρ κ}
    {sourceRecs targetRecs : List ρ} {remSource remTarget : List Nat}
    {r : CompareResult}
    (h : r ∈ (runIndexRule indexRule sourceRecs targetRecs remSource remTarget).1) :
    r.LeftId ∈ remSource ∧ r.RightId ∈ remTarget := by
  unfold runIndexRule at h
  simp only [List.mem_flatMap, List.mem_filterMap, List.mem_filter, List.mem_map] at h
  rcases h with ⟨sk, ⟨s, hs, hsk⟩, tk, ⟨⟨t, ht, htk⟩, _⟩, hr⟩
  rcases Option.map_eq_some'.mp hsk with ⟨ks, _, hks⟩
  rcases Option.map_eq_some'.mp htk with ⟨kt, _, hkt⟩
  rw [← hr]
  constructor
  · simpa [← hks] using hs
  · simpa [← hkt] using ht

theorem tierFresh_fold_mem {ρ κ : Type} [DecidableEq κ]
    {sourceRecs targetRecs : List ρ} {curSource curTarget : List Nat} :
    ∀ (rules : List (IndexRule ρ κ)) (acc : List CompareResult × Int),
      (∀ r ∈ acc.1, r.LeftId ∈ curSource ∧ r.RightId ∈ curTarget) →
      ∀ r ∈ (rules.foldl
        (fun (acc : List CompareResult × Int) indexRule =>
          (acc.1 ++ (runIndexRule indexRule sourceRecs targetRecs curSource curTarget).1,
           if (runIndexRule indexRule sourceRecs targetRecs curSource curTarget).2
           then acc.2 + indexRule.WeightValue else acc.2))
        acc).1,
        r.LeftId ∈ curSource ∧ r.RightId ∈ curTarget := by
  intro rules
  induction rules with
  | nil => intro acc hacc r hr; exact hacc r hr
  | cons rule rest ih =>
    intro acc hacc r hr
    refine ih _ ?_ r hr
    intro x hx
    rcases List.mem_append.mp hx with hx | hx
    · exact hacc x hx
    · exact runIndexRule_mem hx

theorem tierFresh_mem {ρ κ : Type} [DecidableEq κ]
    {sourceRecs targetRecs : List ρ} {rules : List (IndexRule ρ κ)}
    {curSource curTarget : List Nat} {r : CompareResult}
    (h : r ∈ (tierFresh sourceRecs targetRecs rules curSource curTarget).1) :
    r.LeftId ∈ curSource ∧ r.RightId ∈ curTarget := by
  unfold tierFresh at h
  exact tierFresh_fold_mem rules ([], 0) (by simp) r h

/-- Every merged result takes its id pair from the fresh results or from
the carried-over results. -/
theorem mergeRemaining_ids {cur carried : List CompareResult} {r : CompareResult}
    (h : r ∈ MergeRemainingWeightType cur carried) :
    (∃ r2 ∈ cur, r.ids = r2.ids) ∨ (∃ r2 ∈ carried, r.ids = r2.ids) := by
  unfold MergeRemainingWeightType at h
  have h2 := mem_sortLR.mp h
  rcases List.mem_append.mp h2 with h3 | h3
  · exact Or.inl (sumMatchWeightValues_ids_mem h3)
  · rcases List.mem_map.mp h3 with ⟨x, hx, hxe⟩
    refine Or.inr ⟨x, hx, ?_⟩
    rw [← hxe]
    rfl

/-- keepMatches appends cleanly when no unique match source is already in
the matched map and the unique sources are distinct. -/
theorem keepMatches_append :
    ∀ (uniqueMatch : List CompareResult) (matchedEntities : List (Nat × Nat)),
      (∀ r ∈ uniqueMatch, ∀ p ∈ matchedEntities, p.1 ≠ r.LeftId) →
      (uniqueMatch.map (fun r => r.LeftId)).Nodup →
      keepMatches matchedEntities uniqueMatch =
        (matchedEntities ++ uniqueMatch.map (fun r => (r.LeftId, r.RightId)), false) := by
  intro uniqueMatch
  induction uniqueMatch with
  | nil => intro m _ _; simp [keepMatches]
  | cons u rest ih =>
    intro m hdis hnod
    have hnod2 : u.LeftId ∉ rest.map (fun r => r.LeftId) ∧
        (rest.map (fun r => r.LeftId)).Nodup := List.nodup_cons.mp (by simpa using hnod)
    have hany : m.any (fun p => p.1 = u.LeftId) = false := by
      rw [List.any_eq_false]
      intro p hp
      simpa using hdis u (List.mem_cons_self u rest) p hp
    have step : keepMatches m (u :: rest) =
        keepMatches (m ++ [(u.LeftId, u.RightId)]) rest := by
      unfold keepMatches
      simp only [List.foldl_cons, hany]
      rfl
    rw [step, ih (m ++ [(u.LeftId, u.RightId)]) ?_ ?_]
    · simp
    · intro r hr p hp
      rcases List.mem_append.mp hp with hp | hp
      · exact hdis r (List.mem_cons_of_mem u hr) p hp
      · simp only [List.mem_singleton] at hp
        rw [hp]
        intro he
        have he2 : u.LeftId = r.LeftId := he
        refine hnod2.1 ?_
        rw [he2]
        exact List.mem_map_of_mem (fun r => r.LeftId) hr
    · exact hnod2.2

/-- The invariant carried through the tier loop: the matched map is
one-to-one, the carried results and the remaining indices avoid all
matched indices, and no duplicate-commit error was raised. -/
def EngineInv (st : EngineState) : Prop :=
  (st.matched.map Prod.fst).Nodup ∧
  (st.matched.map Prod.snd).Nodup ∧
  (∀ r ∈ st.carried, r.LeftId ∉ st.matched.map Prod.fst ∧
    r.RightId ∉ st.matched.map Prod.snd) ∧
  (∀ p ∈ st.matched, p.1 ∉ st.remSource ∧ p.2 ∉ st.remTarget) ∧
  st.dupError = false

theorem seededSource_subset {st : EngineState} {isSeed : Bool} :
    ∀ s ∈ seededSource st isSeed, s ∈ st.remSource := by
  intro s hs
  unfold seededSource at hs
  split at hs
  · exact hs
  · exact (List.mem_filter.mp hs).1

theorem seededTarget_subset {st : EngineState} {isSeed : Bool} :
    ∀ t ∈ seededTarget st isSeed, t ∈ st.remTarget := by
  intro t ht
  unfold seededTarget at ht
  split at ht
  · exact ht
  · exact (List.mem_filter.mp ht).1

theorem runTier_inv {ρ κ : Type} [DecidableEq κ] (sourceRecs targetRecs : List ρ)
    (ruleType : IndexRuleType ρ κ) {st : EngineState} (hinv : EngineInv st) :
    EngineInv (runTier sourceRecs targetRecs st ruleType) := by
  obtain ⟨hm1, hm2, hcar, hrem, hflag⟩ := hinv
  have hfresh : ∀ r ∈ (tierFresh sourceRecs targetRecs ruleType.IndexRules
      (seededSource st ruleType.IsSeed) (seededTarget st ruleType.IsSeed)).1,
      r.LeftId ∈ st.remSource ∧ r.RightId ∈ st.remTarget := by
    intro r hr
    have h2 := tierFresh_mem hr
    exact ⟨seededSource_subset _ h2.1, seededTarget_subset _ h2.2⟩
  have hmerged : ∀ r ∈ MergeRemainingWeightType
      (tierFresh sourceRecs targetRecs ruleType.IndexRules
        (seededSource st ruleType.IsSeed) (seededTarget st ruleType.IsSeed)).1
      st.carried,
      r.LeftId ∉ st.matched.map Prod.fst ∧ r.RightId ∉ st.matched.map Prod.snd := by
    intro r hr
    rcases mergeRemaining_ids hr with ⟨r2, hr2, hide⟩ | ⟨r2, hr2, hide⟩
    · have hr2p := hfresh r2 hr2
      rw [ids_eq_iff] at hide
      rw [hide.1, hide.2]
      constructor
      · intro hin
        rcases List.mem_map.mp hin with ⟨p, hp, hpe⟩
        exact absurd (hpe ▸ hr2p.1) (hrem p hp).1
      · intro hin
        rcases List.mem_map.mp hin with ⟨p, hp, hpe⟩
        exact absurd (hpe ▸ hr2p.2) (hrem p hp).2
    · have hc := hcar r2 hr2
      rw [ids_eq_iff] at hide
      rw [hide.1, hide.2]
      exact hc
  have huniq : ∀ u ∈ (tierProcessed sourceRecs targetRecs st ruleType).1,
      u.LeftId ∉ st.matched.map Prod.fst ∧ u.RightId ∉ st.matched.map Prod.snd := by
    intro u hu
    unfold tierProcessed at hu
    rcases processMatches_fst_ids hu with ⟨r2, hr2, hide⟩
    have := hmerged r2 hr2
    rw [ids_eq_iff] at hide
    rw [hide.1, hide.2]
    exact this
  have hulno : ((tierProcessed sourceRecs targetRecs st ruleType).1.map
      (fun r => r.LeftId)).Nodup := by
    unfold tierProcessed
    exact processMatches_fst_lefts_nodup _ _ _
  have hurno : ((tierProcessed sourceRecs targetRecs st ruleType).1.map
      (fun r => r.RightId)).Nodup := by
    unfold tierProcessed
    exact processMatches_fst_rights_nodup _ _ _
  have hkeep := keepMatches_append (tierProcessed sourceRecs targetRecs st ruleType).1
    st.matched
    (fun r hr p hp => by
      intro he
      exact (huniq r hr).1 (he ▸ List.mem_map_of_mem Prod.fst hp))
    hulno
  unfold runTier
  rw [hkeep]
  unfold EngineInv
  dsimp only
  refine ⟨?_, ?_, ?_, ?_, by simpa using hflag⟩
  · rw [List.map_append, List.map_map]
    refine hm1.append (by simpa [Function.comp] using hulno) ?_
    intro a ha hb
    rcases List.mem_map.mp hb with ⟨u, hu, hue⟩
    have hue2 : u.LeftId = a := hue
    rw [← hue2] at ha
    exact (huniq u hu).1 ha
  · rw [List.map_append, List.map_map]
    refine hm2.append (by simpa [Function.comp] using hurno) ?_
    intro a ha hb
    rcases List.mem_map.mp hb with ⟨u, hu, hue⟩
    have hue2 : u.RightId = a := hue
    rw [← hue2] at ha
    exact (huniq u hu).2 ha
  · intro r hr
    have hr2 : r ∈ (tierProcessed sourceRecs targetRecs st ruleType).2 := hr
    have hrm : r.LeftId ∉ st.matched.map Prod.fst ∧
        r.RightId ∉ st.matched.map Prod.snd := by
      have hr3 := hr2
      unfold tierProcessed at hr3
      rcases processMatches_snd_ids hr3 with ⟨r3, hr3m, hide⟩
      have := hmerged r3 hr3m
      rw [ids_eq_iff] at hide
      rw [hide.1, hide.2]
      exact this
    simp only [List.map_append, List.map_map]
    have hdisj : ∀ u ∈ (tierProcessed sourceRecs targetRecs st ruleType).1,
        r.LeftId ≠ u.LeftId ∧ r.RightId ≠ u.RightId := by
      intro u hu
      have hr3 := hr2
      unfold tierProcessed at hr3 hu
      exact processMatches_disjoint hr3 hu
    constructor
    · intro hin
      rcases List.mem_append.mp hin with hin | hin
      · exact hrm.1 hin
      · rcases List.mem_map.mp hin with ⟨u, hu, hue⟩
        have hue2 : u.LeftId = r.LeftId := hue
        exact (hdisj u hu).1 hue2.symm
    · intro hin
      rcases List.mem_append.mp hin with hin | hin
      · exact hrm.2 hin
      · rcases List.mem_map.mp hin with ⟨u, hu, hue⟩
        have hue2 : u.RightId = r.RightId := hue
        exact (hdisj u hu).2 hue2.symm
  · intro p hp
    rcases List.mem_append.mp hp with hp | hp
    · have := hrem p hp
      constructor
      · intro hin
        exact this.1 ((List.mem_filter.mp hin).1)
      · intro hin
        exact this.2 ((List.mem_filter.mp hin).1)
    · rcases List.mem_map.mp hp with ⟨u, hu, hue⟩
      have hps : p.1 = u.LeftId := by rw [← hue]
      have hpt : p.2 = u.RightId := by rw [← hue]
      constructor
      · intro hin
        have hcond := (List.mem_filter.mp hin).2
        rw [hps] at hcond
        cases hany : (tierProcessed sourceRecs targetRecs st ruleType).1.any
            (fun r => decide (r.LeftId = u.LeftId)) with
        | false =>
          have hf := List.any_eq_false.mp hany u hu
          simp at hf
        | true =>
          rw [hany] at hcond
          simp at hcond
      · intro hin
        have hcond := (List.mem_filter.mp hin).2
        rw [hpt] at hcond
        cases hany : (tierProcessed sourceRecs targetRecs st ruleType).1.any
            (fun r => decide (r.RightId = u.RightId)) with
        | false =>
          have hf := List.any_eq_false.mp hany u hu
          simp at hf
        | true =>
          rw [hany] at hcond
          simp at hcond

theorem foldl_runTier_inv {ρ κ : Type} [DecidableEq κ]
    (sourceRecs targetRecs : List ρ) :
    ∀ (tiers : List (IndexRuleType ρ κ)) (st : EngineState), EngineInv st →
      EngineInv (tiers.foldl (runTier sourceRecs targetRecs) st) := by
  intro tiers
  induction tiers with
  | nil => intro st h; exact h
  | cons t rest ih =>
    intro st h
    exact ih _ (runTier_inv sourceRecs targetRecs t h)

/-- Claim C2: for every run of RunIndexRuleAll over any source and target
record sets and any rule-tier list, the returned matched-entities map is
one-to-one: no source index is committed to two different target indices,
no two distinct source indices are committed to the same target index, and
the duplicate-commit error of keepMatches is never raised. -/
theorem RunIndexRuleAll_one_to_one {ρ κ : Type} [DecidableEq κ] (selfMatch : Bool)
    (baseRuleList : List (IndexRuleType ρ κ)) (sourceRecs targetRecs : List ρ) :
    (((RunIndexRuleAll selfMatch baseRuleList sourceRecs targetRecs).2.1).map
      Prod.fst).Nodup ∧
    (((RunIndexRuleAll selfMatch baseRuleList sourceRecs targetRecs).2.1).map
      Prod.snd).Nodup ∧
    (RunIndexRuleAll selfMatch baseRuleList sourceRecs targetRecs).2.2 = false := by
  have h0 : EngineInv
      { remSource := List.range sourceRecs.length
        remTarget := List.range targetRecs.length
        carried := []
        matched := []
        dupError := false } := by
    refine ⟨by simp, by simp, by simp, by simp, rfl⟩
  have h := foldl_runTier_inv sourceRecs targetRecs
    (genSortedActiveList selfMatch baseRuleList) _ h0
  obtain ⟨h1, h2, _, _, h5⟩ := h
  exact ⟨h1, h2, h5⟩

theorem ids_nodup_inj {D : List CompareResult} (h : (idPairs D).Nodup)
    {a b : CompareResult} (ha : a ∈ D) (hb : b ∈ D) (he : a.ids = b.ids) :
    a = b := by
  by_contra hne
  have hp : List.Pairwise (fun x y : CompareResult => x.ids ≠ y.ids) D := by
    unfold idPairs at h
    exact List.pairwise_map.mp h
  exact hp.forall (fun x y hxy => fun he2 => hxy he2.symm) ha hb hne he

theorem countLeft_eq_one_iff {D : List CompareResult} {r : CompareResult}
    (hnd : D.Nodup) (hr : r ∈ D) :
    countLeft D r.LeftId = 1 ↔ ∀ r2 ∈ D, r2.LeftId = r.LeftId → r2 = r := by
  constructor
  · intro h r2 h2 he
    by_contra hne
    have h2c : 2 ≤ countLeft D r.LeftId := by
      unfold countLeft
      exact two_le_countP_of_two_mem _ h2 hr hne (by simp [he]) (by simp)
    omega
  · intro h
    have h1 := countLeft_pos_of_mem hr
    by_contra hne
    have h2 : 2 ≤ countLeft D r.LeftId := by omega
    unfold countLeft at h2
    rw [List.countP_eq_length_filter] at h2
    cases hf : D.filter (fun x => x.LeftId == r.LeftId) with
    | nil => rw [hf] at h2; simp at h2
    | cons a tail =>
      cases tail with
      | nil => rw [hf] at h2; simp at h2
      | cons b rest =>
        have hnf : (D.filter (fun x => x.LeftId == r.LeftId)).Nodup := hnd.filter _
        rw [hf] at hnf
        have hab : a ≠ b := by
          have := (List.nodup_cons.mp hnf).1
          intro he
          exact this (he ▸ List.mem_cons_self b rest)
        have hamem : a ∈ D.filter (fun x => x.LeftId == r.LeftId) := by
          rw [hf]; exact List.mem_cons_self _ _
        have hbmem : b ∈ D.filter (fun x => x.LeftId == r.LeftId) := by
          rw [hf]; exact List.mem_cons_of_mem a (List.mem_cons_self b rest)
        have ha2 := List.mem_filter.mp hamem
        have hb2 := List.mem_filter.mp hbmem
        have hae : a = r := h a ha2.1 (by simpa using ha2.2)
        have hbe : b = r := h b hb2.1 (by simpa using hb2.2)
        exact hab (hae.trans hbe.symm)

theorem countRight_eq_one_iff {D : List CompareResult} {r : CompareResult}
    (hnd : D.Nodup) (hr : r ∈ D) :
    countRight D r.RightId = 1 ↔ ∀ r2 ∈ D, r2.RightId = r.RightId → r2 = r := by
  constructor
  · intro h r2 h2 he
    by_contra hne
    have h2c : 2 ≤ countRight D r.RightId := by
      unfold countRight
      exact two_le_countP_of_two_mem _ h2 hr hne (by simp [he]) (by simp)
    omega
  · intro h
    have h1 : 1 ≤ countRight D r.RightId := by
      have hpos : 0 < List.countP (fun x => x.RightId == r.RightId) D :=
        List.countP_pos_iff.mpr ⟨r, hr, by simp⟩
      simpa [countRight] using hpos
    by_contra hne
    have h2 : 2 ≤ countRight D r.RightId := by omega
    unfold countRight at h2
    rw [List.countP_eq_length_filter] at h2
    cases hf : D.filter (fun x => x.RightId == r.RightId) with
    | nil => rw [hf] at h2; simp at h2
    | cons a tail =>
      cases tail with
      | nil => rw [hf] at h2; simp at h2
      | cons b rest =>
        have hnf : (D.filter (fun x => x.RightId == r.RightId)).Nodup := hnd.filter _
        rw [hf] at hnf
        have hab : a ≠ b := by
          have := (List.nodup_cons.mp hnf).1
          intro he
          exact this (he ▸ List.mem_cons_self b rest)
        have hamem : a ∈ D.filter (fun x => x.RightId == r.RightId) := by
          rw [hf]; exact List.mem_cons_self _ _
        have hbmem : b ∈ D.filter (fun x => x.RightId == r.RightId) := by
          rw [hf]; exact List.mem_cons_of_mem a (List.mem_cons_self b rest)
        have ha2 := List.mem_filter.mp hamem
        have hb2 := List.mem_filter.mp hbmem
        have hae : a = r := h a ha2.1 (by simpa using ha2.2)
        have hbe : b = r := h b hb2.1 (by simpa using hb2.2)
        exact hab (hae.trans hbe.symm)

theorem isTopLeft_perm {l1 l2 : List CompareResult} (h : List.Perm l1 l2)
    {r : CompareResult} : isTopLeft l1 r ↔ isTopLeft l2 r := by
  unfold isTopLeft
  constructor
  · intro hh r2 hm he
    exact hh r2 (h.mem_iff.mpr hm) he
  · intro hh r2 hm he
    exact hh r2 (h.mem_iff.mp hm) he

theorem survivesReduction_perm {l1 l2 : List CompareResult}
    (h : List.Perm l1 l2) {r : CompareResult} :
    survivesReduction l1 r ↔ survivesReduction l2 r := by
  unfold survivesReduction
  constructor
  · rintro ⟨h1, h2⟩
    refine ⟨(isTopLeft_perm h).mp h1, ?_⟩
    intro r2 hm ht he
    exact h2 r2 (h.mem_iff.mpr hm) ((isTopLeft_perm h).mpr ht) he
  · rintro ⟨h1, h2⟩
    refine ⟨(isTopLeft_perm h).mpr h1, ?_⟩
    intro r2 hm ht he
    exact h2 r2 (h.mem_iff.mp hm) ((isTopLeft_perm h).mp ht) he

/-- Claim C1 (amended): with the candidate pairs distinct (as produced by
weight summation), ProcessMatches without split-match returns exactly the
pairs that survive the two staged reductions (top weight for their source
among all candidates, then top weight for their target among the
candidates top for their source) and are then the sole surviving candidate
of their source and of their target; the trimmed candidate list keeps
exactly the other survivors of the reductions, so pairs eliminated by a
reduction do not remain as candidates. -/
theorem ProcessMatches_unique_characterization {l : List CompareResult}
    (hnd : (idPairs l).Nodup) :
    (∀ r : CompareResult, r ∈ (ProcessMatches false 0 l).1 ↔
       (r ∈ l ∧ survivesReduction l r ∧
        (∀ r2 ∈ l, survivesReduction l r2 → r2.LeftId = r.LeftId → r2 = r) ∧
        (∀ r2 ∈ l, survivesReduction l r2 → r2.RightId = r.RightId → r2 = r))) ∧
    (∀ r : CompareResult, r ∈ (ProcessMatches false 0 l).2 ↔
       (r ∈ l ∧ survivesReduction l r ∧ r ∉ (ProcessMatches false 0 l).1)) := by
  by_cases hemp : l = []
  · subst hemp
    constructor <;> intro r <;> simp [ProcessMatches]
  · have hie : l.isEmpty = false := by
      cases l with
      | nil => exact absurd rfl hemp
      | cons a b => rfl
    have hS : List.Perm (sumMatchWeightValues false 0 l) l := sum_nodup_perm hnd
    have hFn : (idPairs (extractUniqueTopMatch
        (sumMatchWeightValues false 0 l)).2).Nodup := by
      show (idPairs (reduceBothForwardAndBackward _).1).Nodup
      exact reduceBoth_fst_idPairs_nodup (sum_idPairs_nodup _ _ _)
    have hFnd : (extractUniqueTopMatch (sumMatchWeightValues false 0 l)).2.Nodup :=
      List.Nodup.of_map _ hFn
    have hmemF : ∀ r : CompareResult,
        r ∈ (extractUniqueTopMatch (sumMatchWeightValues false 0 l)).2 ↔
          r ∈ l ∧ survivesReduction l r := by
      intro r
      show r ∈ (reduceBothForwardAndBackward _).1 ↔ _
      rw [mem_reduceBoth_fst, hS.mem_iff, survivesReduction_perm hS]
    have hP1 : (ProcessMatches false 0 l).1 =
        (extractUniqueTopMatch (sumMatchWeightValues false 0 l)).1 := by
      unfold ProcessMatches
      rw [if_neg (by simp [hie])]
    constructor
    · intro r
      rw [hP1, mem_extract_fst]
      constructor
      · rintro ⟨hF, hcl, hcr⟩
        have hrF := (hmemF r).mp hF
        refine ⟨hrF.1, hrF.2, ?_, ?_⟩
        · intro r2 h2 hs2 he
          exact (countLeft_eq_one_iff hFnd hF).mp hcl r2 ((hmemF r2).mpr ⟨h2, hs2⟩) he
        · intro r2 h2 hs2 he
          exact (countRight_eq_one_iff hFnd hF).mp hcr r2 ((hmemF r2).mpr ⟨h2, hs2⟩) he
      · rintro ⟨hml, hs, hUL, hUR⟩
        have hF : r ∈ (extractUniqueTopMatch (sumMatchWeightValues false 0 l)).2 :=
          (hmemF r).mpr ⟨hml, hs⟩
        refine ⟨hF, ?_, ?_⟩
        · rw [countLeft_eq_one_iff hFnd hF]
          intro r2 h2 he
          have h3 := (hmemF r2).mp h2
          exact hUL r2 h3.1 h3.2 he
        · rw [countRight_eq_one_iff hFnd hF]
          intro r2 h2 he
          have h3 := (hmemF r2).mp h2
          exact hUR r2 h3.1 h3.2 he
    · intro r
      rw [processMatches_snd_mem]
      constructor
      · rintro ⟨hF, hnid, _⟩
        have hrF := (hmemF r).mp hF
        refine ⟨hrF.1, hrF.2, ?_⟩
        intro hin
        exact hnid (List.mem_map_of_mem CompareResult.ids hin)
      · rintro ⟨hml, hs, hnin⟩
        refine ⟨(hmemF r).mpr ⟨hml, hs⟩, ?_, hie⟩
        intro hid
        rcases mem_idPairs.mp hid with ⟨u, hu, hue⟩
        have huF : u ∈ (extractUniqueTopMatch (sumMatchWeightValues false 0 l)).2 :=
          (mem_extract_fst.mp (hP1 ▸ hu)).1
        have hreq : r = u :=
          ids_nodup_inj hFn ((hmemF r).mpr ⟨hml, hs⟩) huF hue
        refine hnin ?_
        rw [hreq]
        exact hu

/-- Witness for claim C1 (amended) at a concrete input: three candidate
pairs among which exactly (1,1) and (0,0) survive as mutual unique top
matches after the staged reductions. -/
theorem ProcessMatches_unique_characterization_witness :
    (CompareResult.mk 1 1 9) ∈
      (ProcessMatches false 0
        [CompareResult.mk 0 0 5, CompareResult.mk 1 0 8, CompareResult.mk 1 1 9]).1 ∧
    (CompareResult.mk 1 1 9) ∈
      [CompareResult.mk 0 0 5, CompareResult.mk 1 0 8, CompareResult.mk 1 1 9] := by
  have h := (ProcessMatches_unique_characterization (l :=
    [CompareResult.mk 0 0 5, CompareResult.mk 1 0 8, CompareResult.mk 1 1 9])
    (by decide)).1 (CompareResult.mk 1 1 9)
  refine ⟨h.mpr (by decide), by decide⟩

/-- Claim C1 counterexample: ProcessMatches returns the pair (0,0) even
though source 1 pairs target 0 with a strictly higher summed weight, so a
returned pair need not have its source as the strictly-highest-weight
candidate of its target among all candidates in the processed list. -/
theorem ProcessMatches_not_globally_mutual_top :
    (CompareResult.mk 0 0 5) ∈
      (ProcessMatches false 0
        [CompareResult.mk 0 0 5, CompareResult.mk 1 0 8, CompareResult.mk 1 1 9]).1 ∧
    ¬ isTopRight
      [CompareResult.mk 0 0 5, CompareResult.mk 1 0 8, CompareResult.mk 1 1 9]
      (CompareResult.mk 0 0 5) := by
  constructor
  · decide
  · decide

/-- Claim C4 (code-bug evidence): in a split-match tier whose maximum
match value reflects two rules (10 + 15 = 25), a pair that matched only
the first rule (summed weight 10 < 25) and is the only candidate result IS
returned as a unique match by ProcessMatches — the early return of
sumMatchWeightValues on lists of length at most one skips the split-match
gate — and consequently RunIndexRuleAll commits the pair and carries
nothing forward, against the documented split-match semantics. -/
theorem splitMatch_single_candidate_promoted :
    ProcessMatches true 25 [CompareResult.mk 0 0 10] =
      ([CompareResult.mk 0 0 10], []) ∧
    (10 : Int) < 25 ∧
    RunIndexRuleAll false
      [{ Key := 0, IsSeed := true, SplitMatch := true, WeightValue := 100,
         IndexRules :=
          [{ WeightValue := 10, SelfMatchDisabled := false,
             key := fun p : Nat × Nat => some p.1 },
           { WeightValue := 15, SelfMatchDisabled := false,
             key := fun p : Nat × Nat => some p.2 }] }]
      [(1, 2)] [(1, 3)] = ([], [(0, 0)], false) := by
  refine ⟨by decide, by decide, by rfl⟩

/-- Claim C5: MergeRemainingWeightType increases every carried-over
result by exactly the maximum weight of the current tier summed results
(the merged list is a permutation of the summed current results together
with the uniformly elevated carried results), and with positive carried
weights every elevated carried result strictly outweighs every current
summed result. -/
theorem MergeRemainingWeightType_elevates (cur remainingResults : List CompareResult)
    (hpos : ∀ c ∈ remainingResults, 0 < c.Weight) :
    List.Perm (MergeRemainingWeightType cur remainingResults)
      (sumMatchWeightValues false 0 cur ++ remainingResults.map (fun c =>
        CompareResult.mk c.LeftId c.RightId
          (c.Weight + getMaxWeight (sumMatchWeightValues false 0 cur)))) ∧
    (∀ f ∈ sumMatchWeightValues false 0 cur, ∀ c ∈ remainingResults,
      f.Weight < c.Weight + getMaxWeight (sumMatchWeightValues false 0 cur)) := by
  constructor
  · unfold MergeRemainingWeightType elevateWeight
    exact sortLR_perm _
  · intro f hf c hc
    have h1 := weight_le_getMaxWeight hf
    have h2 := hpos c hc
    omega

/-- Witness for claim C5 at a concrete input: one summed current result
of weight 5 and one carried result of weight 2, elevated to 7. -/
theorem MergeRemainingWeightType_elevates_witness :
    List.Perm (MergeRemainingWeightType [CompareResult.mk 0 0 5]
        [CompareResult.mk 1 1 2])
      (sumMatchWeightValues false 0 [CompareResult.mk 0 0 5] ++
        [CompareResult.mk 1 1 2].map (fun c =>
          CompareResult.mk c.LeftId c.RightId
            (c.Weight + getMaxWeight
              (sumMatchWeightValues false 0 [CompareResult.mk 0 0 5])))) ∧
    (∀ f ∈ sumMatchWeightValues false 0 [CompareResult.mk 0 0 5],
      ∀ c ∈ [CompareResult.mk 1 1 2],
        f.Weight < c.Weight + getMaxWeight
          (sumMatchWeightValues false 0 [CompareResult.mk 0 0 5])) :=
  MergeRemainingWeightType_elevates [CompareResult.mk 0 0 5]
    [CompareResult.mk 1 1 2] (by decide)

/-!
Association list lemmas and the output assembly invariants.
-/

theorem hasKey_iff {β : Type} {m : List (String × β)} {k : String} :
    hasKey m k = true ↔ k ∈ m.map Prod.fst := by
  unfold hasKey
  rw [List.any_eq_true]
  constructor
  · rintro ⟨p, hp, hpe⟩
    simp at hpe
    exact hpe ▸ List.mem_map_of_mem Prod.fst hp
  · intro h
    rcases List.mem_map.mp h with ⟨p, hp, hpe⟩
    exact ⟨p, hp, by simp [hpe]⟩

theorem hasKey_false_iff {β : Type} {m : List (String × β)} {k : String} :
    hasKey m k = false ↔ k ∉ m.map Prod.fst := by
  rw [← hasKey_iff]
  cases hasKey m k <;> simp

theorem lookupKV_append_of_some {β : Type} {m : List (String × β)} {k : String}
    {v : β} (h : lookupKV m k = some v) (z : List (String × β)) :
    lookupKV (m ++ z) k = some v := by
  unfold lookupKV at h ⊢
  rcases Option.map_eq_some'.mp h with ⟨p, hp, hpe⟩
  rw [List.find?_append, hp]
  simp [hpe]

theorem lookupKV_append_of_none {β : Type} {m : List (String × β)} {k : String}
    (h : hasKey m k = false) (v : β) :
    lookupKV (m ++ [(k, v)]) k = some v := by
  unfold lookupKV
  rw [List.find?_append]
  have hnone : m.find? (fun p => p.1 = k) = none := by
    rw [List.find?_eq_none]
    intro p hp
    have := hasKey_false_iff.mp h
    simp only [decide_eq_true_eq]
    intro he
    exact this (he ▸ List.mem_map_of_mem Prod.fst hp)
  rw [hnone]
  simp

theorem lookupKV_isSome_of_hasKey {β : Type} {m : List (String × β)} {k : String}
    (h : hasKey m k = true) : ∃ v, lookupKV m k = some v := by
  rcases List.mem_map.mp (hasKey_iff.mp h) with ⟨p, hp, hpe⟩
  unfold lookupKV
  have h2 : (m.find? (fun p => decide (p.1 = k))).isSome = true :=
    List.find?_isSome.mpr ⟨p, hp, by simpa using hpe⟩
  cases hf : m.find? (fun p => decide (p.1 = k)) with
  | none => rw [hf] at h2; simp at h2
  | some q => exact ⟨q.2, rfl⟩

theorem setKV_keys {β : Type} {m : List (String × β)} {k x : String} {v : β} :
    x ∈ (setKV m k v).map Prod.fst ↔ x ∈ m.map Prod.fst ∨ x = k := by
  unfold setKV
  split
  · rename_i hk
    have heq : ((m.map (fun p => if p.1 = k then (k, v) else p)).map Prod.fst) =
        m.map Prod.fst := by
      rw [List.map_map]
      refine List.map_congr_left ?_
      intro p hp
      by_cases hc : p.1 = k
      · simp [hc]
      · simp [hc]
    rw [heq]
    constructor
    · exact Or.inl
    · rintro (h | rfl)
      · exact h
      · exact hasKey_iff.mp hk
  · rw [List.map_append]
    simp

/-- The invariant of the match-entry folds of genOutputPayload: unique
source keys, unique target values, and every entered target claimed in
the reverse map. -/
def MatchStInv (st : List (String × String) × List (String × String)) : Prop :=
  (st.1.map Prod.fst).Nodup ∧ (st.1.map Prod.snd).Nodup ∧
  (∀ p ∈ st.1, p.2 ∈ st.2.map Prod.fst)

theorem addMatchPair_inv {st : List (String × String) × List (String × String)}
    (h : MatchStInv st) (s t : String) : MatchStInv (addMatchPair st s t) := by
  obtain ⟨h1, h2, h3⟩ := h
  unfold addMatchPair
  split
  · exact ⟨h1, h2, h3⟩
  · split
    · exact ⟨h1, h2, h3⟩
    · rename_i hks hkt
      refine ⟨?_, ?_, ?_⟩
      · rw [List.map_append]
        refine h1.append (by simp) ?_
        intro a ha hb
        simp at hb
        exact absurd (hasKey_iff.mpr (hb ▸ ha)) (by simp [hks])
      · rw [List.map_append]
        refine h2.append (by simp) ?_
        intro a ha hb
        simp at hb
        rcases List.mem_map.mp ha with ⟨p, hp, hpe⟩
        have := h3 p hp
        rw [hpe, hb] at this
        exact absurd (hasKey_iff.mpr this) (by simp [hkt])
      · intro p hp
        rcases List.mem_append.mp hp with hp | hp
        · rw [List.map_append]
          exact List.mem_append.mpr (Or.inl (h3 p hp))
        · simp at hp
          rw [hp, List.map_append]
          simp

theorem foldPairs_inv {α : Type} (f g : α → String) :
    ∀ (l : List α) (st : List (String × String) × List (String × String)),
      MatchStInv st →
      MatchStInv (l.foldl (fun st x => addMatchPair st (f x) (g x)) st) := by
  intro l
  induction l with
  | nil => intro st h; exact h
  | cons x rest ih =>
    intro st h
    exact ih _ (addMatchPair_inv h (f x) (g x))

/-- Claim C7: the three precedence steps of genOutputPayload run in order
(current unique matches, previous-run matches, first-seen promotions) and
each entry is made only when its source id is unassigned and its target id
unclaimed, so the final Matches map is injective over the whole output: no
source id is bound twice and no target id is bound to two sources. -/
theorem genOutputPayload_matches_injective (sourceRecs targetRecs : List EntityRec)
    (results : List CompareResult) (matchedEntities : List (Nat × Nat))
    (prevMatches : MatchOutputType) (remainingMatch : List Nat) :
    ((genOutputPayload sourceRecs targetRecs results matchedEntities prevMatches
      remainingMatch).Matches.map Prod.fst).Nodup ∧
    ((genOutputPayload sourceRecs targetRecs results matchedEntities prevMatches
      remainingMatch).Matches.map Prod.snd).Nodup := by
  have h0 : MatchStInv ([], []) := ⟨by simp, by simp, by simp⟩
  have h1 := foldPairs_inv (fun p : Nat × Nat => (recAt sourceRecs p.1).entityId)
    (fun p : Nat × Nat => (recAt targetRecs p.2).entityId) matchedEntities ([], []) h0
  have h2 := foldPairs_inv (fun p : String × String => p.1)
    (fun p : String × String => p.2) prevMatches.Matches _ h1
  have h3 := foldPairs_inv (fun p : String × String => p.1)
    (fun p : String × String => p.2)
    (genMultiMatchedMap sourceRecs targetRecs results prevMatches.Matches).2 _ h2
  exact ⟨h3.1, h3.2.1⟩

/-- Claim C9 counterexample: readMatchesPrev also returns an error when
the file is read successfully with nonzero content but fails to
unmarshal, so the error case is not exactly the zero-byte file. -/
theorem readMatchesPrev_error_on_bad_content :
    readMatchesPrev
      { prevResultDir := "p"
        existsCheckFails := false
        readResult := some [1, 2, 3]
        unmarshalResult := Except.error "invalid" } = Except.error "invalid" ∧
    ([1, 2, 3] : List Nat).length ≠ 0 := by
  constructor
  · rfl
  · decide

/-- Claim C9 (amended): readMatchesPrev returns empty previous data and no
error when the previous-result directory is not configured, the existence
check errors or the file cannot be read, and returns an error (with empty
data) exactly when the file is read successfully and either contains zero
bytes or fails to unmarshal. -/
theorem readMatchesPrev_error_iff (env : PrevReadEnv) :
    ((∃ e, readMatchesPrev env = Except.error e) ↔
      (env.prevResultDir ≠ "" ∧ env.existsCheckFails = false ∧
       ∃ data, env.readResult = some data ∧
         (data.length = 0 ∨ ∃ e2, env.unmarshalResult = Except.error e2))) ∧
    (env.prevResultDir = "" ∨ env.existsCheckFails = true ∨ env.readResult = none →
      readMatchesPrev env = Except.ok ⟨[], [], []⟩) := by
  unfold readMatchesPrev
  constructor
  · constructor
    · intro ⟨e, he⟩
      split at he
      · simp at he
      · split at he
        · simp at he
        · rename_i hdir hex
          refine ⟨hdir, by simpa using hex, ?_⟩
          split at he
          · simp at he
          · rename_i data hdata
            refine ⟨data, hdata, ?_⟩
            split at he
            · rename_i hzero
              exact Or.inl hzero
            · exact Or.inr ⟨e, he⟩
    · rintro ⟨hdir, hex, data, hdata, hcase⟩
      rw [if_neg hdir, if_neg (by simp [hex]), hdata]
      dsimp only
      rcases hcase with hzero | ⟨e2, he2⟩
      · rw [if_pos hzero]
        exact ⟨"file is empty", rfl⟩
      · rw [he2]
        by_cases hz : data.length = 0
        · rw [if_pos hz]
          exact ⟨"file is empty", rfl⟩
        · rw [if_neg hz]
          exact ⟨e2, rfl⟩
  · intro hcase
    rcases hcase with hdir | hex | hread
    · rw [if_pos hdir]
    · rw [hex]
      split
      · rfl
      · simp
    · split
      · rfl
      · split
        · rfl
        · rw [hread]

/-- Witness for claim C9 (amended): a present but empty file errors, and
an unconfigured directory yields empty data without an error. -/
theorem readMatchesPrev_error_iff_witness :
    (∃ e, readMatchesPrev
      { prevResultDir := "p"
        existsCheckFails := false
        readResult := some []
        unmarshalResult := Except.ok ⟨[], [], []⟩ } = Except.error e) ∧
    readMatchesPrev
      { prevResultDir := ""
        existsCheckFails := false
        readResult := none
        unmarshalResult := Except.ok ⟨[], [], []⟩ } = Except.ok ⟨[], [], []⟩ := by
  constructor
  · exact (readMatchesPrev_error_iff _).1.mpr
      ⟨by decide, rfl, [], rfl, Or.inl rfl⟩
  · exact (readMatchesPrev_error_iff _).2 (Or.inl rfl)

theorem multiMatchedPair_keys_not_prev (sourceRecs targetRecs : List EntityRec)
    (prevMatches : List (String × String)) :
    ∀ (groups : List (List CompareResult))
      (acc : List (String × List String) × List (String × String)),
      (∀ k ∈ acc.1.map Prod.fst, hasKey prevMatches k = false) →
      ∀ k ∈ (groups.foldl
        (addMatchingMultiMatched sourceRecs targetRecs prevMatches) acc).1.map
          Prod.fst,
        hasKey prevMatches k = false := by
  intro groups
  induction groups with
  | nil => intro acc hacc k hk; exact hacc k hk
  | cons g rest ih =>
    intro acc hacc k hk
    refine ih _ ?_ k hk
    intro k2 hk2
    unfold addMatchingMultiMatched at hk2
    split at hk2
    · exact hacc k2 hk2
    · rename_i c g2
      dsimp only at hk2
      split at hk2
      · exact hacc k2 hk2
      · rename_i hkp
        rcases setKV_keys.mp hk2 with h2 | rfl
        · exact hacc k2 h2
        · cases hres : hasKey prevMatches ((recAt sourceRecs c.LeftId).entityId) with
          | false => exact rfl
          | true => exact absurd hres hkp

/-- Claim C10: a source entity id that is a key of the previous-run
Matches never appears in UnMatched (the unmatched loop skips it) and never
appears as a MultiMatched key (the group handler returns early for it),
even when the previous match is not honored in the current Matches; at the
concrete input below the previous pair (A,B) loses target B to the current
unique match (C,B) and A is then absent from all three output sets. -/
theorem prevMatched_not_unmatched_not_multimatched :
    (∀ (sourceRecs targetRecs : List EntityRec) (results : List CompareResult)
       (matchedEntities : List (Nat × Nat)) (prevMatches : MatchOutputType)
       (remainingMatch : List Nat) (sid : String),
       sid ∈ prevMatches.Matches.map Prod.fst →
       sid ∉ (genOutputPayload sourceRecs targetRecs results matchedEntities
         prevMatches remainingMatch).UnMatched ∧
       sid ∉ ((genOutputPayload sourceRecs targetRecs results matchedEntities
         prevMatches remainingMatch).MultiMatched.map Prod.fst)) ∧
    ("A" ∈ ([("A", "B")].map (Prod.fst (β := String))) ∧
     "A" ∉ ((genOutputPayload [EntityRec.mk "C" 10, EntityRec.mk "A" 20]
        [EntityRec.mk "B" 100] [] [(0, 0)]
        ⟨[("A", "B")], [], []⟩ [1]).Matches.map Prod.fst) ∧
     "A" ∉ ((genOutputPayload [EntityRec.mk "C" 10, EntityRec.mk "A" 20]
        [EntityRec.mk "B" 100] [] [(0, 0)]
        ⟨[("A", "B")], [], []⟩ [1]).MultiMatched.map Prod.fst) ∧
     "A" ∉ (genOutputPayload [EntityRec.mk "C" 10, EntityRec.mk "A" 20]
        [EntityRec.mk "B" 100] [] [(0, 0)]
        ⟨[("A", "B")], [], []⟩ [1]).UnMatched) := by
  constructor
  · intro sourceRecs targetRecs results matchedEntities prevMatches remainingMatch
      sid hsid
    constructor
    · intro hin
      have hmem := List.mem_filter.mp hin
      have hcond := hmem.2
      simp only [Bool.not_eq_true'] at hcond
      exact (hasKey_false_iff.mp hcond) hsid
    · intro hin
      have := multiMatchedPair_keys_not_prev sourceRecs targetRecs
        prevMatches.Matches (groupsByLeft results) ([], []) (by simp) sid hin
      exact (hasKey_false_iff.mp this) hsid
  · refine ⟨by decide, by decide, by decide, by decide⟩

/-- Witness for claim C10 at a concrete input. -/
theorem prevMatched_not_unmatched_not_multimatched_witness :
    "A" ∉ (genOutputPayload [EntityRec.mk "C" 10, EntityRec.mk "A" 20]
      [EntityRec.mk "B" 100] [] [(0, 0)]
      ⟨[("A", "B")], [], []⟩ [1]).UnMatched ∧
    "A" ∉ ((genOutputPayload [EntityRec.mk "C" 10, EntityRec.mk "A" 20]
      [EntityRec.mk "B" 100] [] [(0, 0)]
      ⟨[("A", "B")], [], []⟩ [1]).MultiMatched.map Prod.fst) :=
  prevMatched_not_unmatched_not_multimatched.1
    [EntityRec.mk "C" 10, EntityRec.mk "A" 20] [EntityRec.mk "B" 100] [] [(0, 0)]
    ⟨[("A", "B")], [], []⟩ [1] "A" (by decide)

theorem groupsByLeft_eq_nil {l : List CompareResult} :
    groupsByLeft l = [] ↔ l = [] := by
  constructor
  · intro h
    cases l with
    | nil => rfl
    | cons r rest =>
      simp only [groupsByLeft] at h
      split at h
      · simp at h
      · simp at h
      · split at h <;> simp at h
  · intro h
    rw [h]
    rfl

theorem groupsByLeft_prefix :
    ∀ l : List CompareResult, groupsByLeft l = [] ∨
      ∃ g0 gs t, groupsByLeft l = g0 :: gs ∧ l = g0 ++ t := by
  intro l
  induction l with
  | nil => exact Or.inl rfl
  | cons r rest ih =>
    refine Or.inr ?_
    simp only [groupsByLeft]
    cases hgr : groupsByLeft rest with
    | nil =>
      have hrest : rest = [] := groupsByLeft_eq_nil.mp hgr
      exact ⟨[r], [], [], rfl, by simp [hrest]⟩
    | cons g0 gs =>
      rcases ih with h | ⟨g0', gs', t, hg, hl⟩
      · rw [h] at hgr; simp at hgr
      · rw [hg] at hgr
        injection hgr with h1 h2
        cases g0 with
        | nil =>
          dsimp only
          exact ⟨[r], [] :: gs, rest, rfl, by simp⟩
        | cons s g2 =>
          dsimp only
          by_cases hrl : r.LeftId = s.LeftId
          · rw [if_pos hrl]
            refine ⟨r :: s :: g2, gs, t, rfl, ?_⟩
            rw [hl, h1]
            rfl
          · rw [if_neg hrl]
            exact ⟨[r], (s :: g2) :: gs, rest, rfl, by simp⟩

theorem groupsByLeft_subset :
    ∀ l : List CompareResult, ∀ g ∈ groupsByLeft l, ∀ x ∈ g, x ∈ l := by
  intro l
  induction l with
  | nil => intro g hg; simp [groupsByLeft] at hg
  | cons r rest ih =>
    intro g hg x hx
    simp only [groupsByLeft] at hg
    rcases hcase : groupsByLeft rest with _ | ⟨g0, gs⟩
    · rw [hcase] at hg
      dsimp only at hg
      simp at hg
      rw [hg] at hx
      simp at hx
      simp [hx]
    · rw [hcase] at hg
      cases g0 with
      | nil =>
        dsimp only at hg
        rcases List.mem_cons.mp hg with rfl | hg2
        · simp at hx
          simp [hx]
        · rcases List.mem_cons.mp hg2 with rfl | hg3
          · simp at hx
          · exact List.mem_cons_of_mem r (ih _ (hcase ▸ List.mem_cons_of_mem [] hg3) x hx)
      | cons s g2 =>
        dsimp only at hg
        by_cases hrl : r.LeftId = s.LeftId
        · rw [if_pos hrl] at hg
          rcases List.mem_cons.mp hg with rfl | hg2
          · rcases List.mem_cons.mp hx with rfl | hx2
            · simp
            · exact List.mem_cons_of_mem r
                (ih _ (hcase ▸ List.mem_cons_self _ _) x hx2)
          · exact List.mem_cons_of_mem r
              (ih _ (hcase ▸ List.mem_cons_of_mem _ hg2) x hx)
        · rw [if_neg hrl] at hg
          rcases List.mem_cons.mp hg with rfl | hg2
          · simp at hx
            simp [hx]
          · exact List.mem_cons_of_mem r (ih _ (hcase ▸ hg2) x hx)

theorem groupsByLeft_join (l : List CompareResult) :
    (groupsByLeft l).flatten = l := by
  induction l with
  | nil => rfl
  | cons r rest ih =>
    simp only [groupsByLeft]
    cases hgr : groupsByLeft rest with
    | nil =>
      have hrest : rest = [] := groupsByLeft_eq_nil.mp hgr
      simp [hrest, List.flatten]
    | cons g0 gs =>
      rw [hgr] at ih
      cases g0 with
      | nil =>
        dsimp only
        simp only [List.flatten_cons] at ih ⊢
        rw [← ih]
        simp
      | cons s g2 =>
        dsimp only
        by_cases hrl : r.LeftId = s.LeftId
        · rw [if_pos hrl]
          simp only [List.flatten_cons] at ih ⊢
          rw [← ih]
          simp
        · rw [if_neg hrl]
          simp only [List.flatten_cons] at ih ⊢
          rw [← ih]
          simp

theorem groupsByLeft_same_left :
    ∀ (l : List CompareResult), ∀ g ∈ groupsByLeft l, ∀ x ∈ g, ∀ y ∈ g,
      x.LeftId = y.LeftId := by
  intro l
  induction l with
  | nil => intro g hg; simp [groupsByLeft] at hg
  | cons r rest ih =>
    intro g hg x hx y hy
    simp only [groupsByLeft] at hg
    rcases hgr : groupsByLeft rest with _ | ⟨g0, gs⟩
    · rw [hgr] at hg
      dsimp only at hg
      simp at hg
      subst hg
      simp at hx hy
      rw [hx, hy]
    · rw [hgr] at hg
      cases g0 with
      | nil =>
        dsimp only at hg
        rcases List.mem_cons.mp hg with rfl | hg2
        · simp at hx hy
          rw [hx, hy]
        · rcases List.mem_cons.mp hg2 with rfl | hg3
          · simp at hx
          · exact ih g (hgr ▸ List.mem_cons_of_mem [] hg3) x hx y hy
      | cons s g2 =>
        dsimp only at hg
        by_cases hrl : r.LeftId = s.LeftId
        · rw [if_pos hrl] at hg
          have hgrp : ∀ z ∈ s :: g2, z.LeftId = s.LeftId := fun z hz =>
            ih _ (hgr ▸ List.mem_cons_self _ _) z hz s (List.mem_cons_self _ _)
          rcases List.mem_cons.mp hg with rfl | hg2
          · have hxs : x.LeftId = s.LeftId := by
              rcases List.mem_cons.mp hx with rfl | hx2
              · exact hrl
              · exact hgrp x hx2
            have hys : y.LeftId = s.LeftId := by
              rcases List.mem_cons.mp hy with rfl | hy2
              · exact hrl
              · exact hgrp y hy2
            rw [hxs, hys]
          · exact ih g (hgr ▸ List.mem_cons_of_mem _ hg2) x hx y hy
        · rw [if_neg hrl] at hg
          rcases List.mem_cons.mp hg with rfl | hg2
          · simp at hx hy
            rw [hx, hy]
          · exact ih g (hgr ▸ hg2) x hx y hy

theorem setKV_mem {β : Type} {m : List (String × β)} {k : String} {v : β}
    {p : String × β} (h : p ∈ setKV m k v) : p ∈ m ∨ p = (k, v) := by
  unfold setKV at h
  split at h
  · rcases List.mem_map.mp h with ⟨q, hq, hqe⟩
    by_cases hc : q.1 = k
    · rw [if_pos hc] at hqe
      exact Or.inr hqe.symm
    · rw [if_neg hc] at hqe
      exact Or.inl (hqe ▸ hq)
  · rcases List.mem_append.mp h with h | h
    · exact Or.inl h
    · simp at h
      exact Or.inr h

theorem setKV_hasKey_self {β : Type} (m : List (String × β)) (k : String) (v : β) :
    hasKey (setKV m k v) k = true := by
  rw [hasKey_iff, setKV_keys]
  exact Or.inr rfl

theorem setKV_hasKey_mono {β : Type} {m : List (String × β)} {x k : String} {v : β}
    (h : hasKey m x = true) : hasKey (setKV m k v) x = true := by
  rw [hasKey_iff] at h ⊢
  rw [setKV_keys]
  exact Or.inl h

theorem hasKey_false_of_lookup_none {β : Type} {m : List (String × β)} {k : String}
    (h : lookupKV m k = none) : hasKey m k = false := by
  cases hk : hasKey m k with
  | false => rfl
  | true =>
    rcases lookupKV_isSome_of_hasKey hk with ⟨v, hv⟩
    rw [hv] at h
    exact absurd h (by simp)

/-- The first-seen selection fold either never fires and leaves the
accumulator unchanged, or returns the first group member attaining the
strict maximum first-seen timestamp above the accumulator. -/
theorem selStep_fold_cases (targetRecs : List EntityRec) :
    ∀ (g : List CompareResult) (b : Int × Option String),
      (g.foldl (selStep targetRecs) b = b ∧
        ∀ r ∈ g, (recAt targetRecs r.RightId).firstSeenTms ≤ b.1) ∨
      (∃ r ∈ g,
        (g.foldl (selStep targetRecs) b).1 =
          (recAt targetRecs r.RightId).firstSeenTms ∧
        (g.foldl (selStep targetRecs) b).2 =
          some ((recAt targetRecs r.RightId).entityId) ∧
        b.1 < (recAt targetRecs r.RightId).firstSeenTms ∧
        ∀ r2 ∈ g, (recAt targetRecs r2.RightId).firstSeenTms ≤
          (recAt targetRecs r.RightId).firstSeenTms) := by
  intro g
  induction g with
  | nil => intro b; exact Or.inl ⟨rfl, by simp⟩
  | cons r g ih =>
    intro b
    rw [List.foldl_cons]
    by_cases hb : b.1 < (recAt targetRecs r.RightId).firstSeenTms
    · have hstep : selStep targetRecs b r =
          ((recAt targetRecs r.RightId).firstSeenTms,
           some ((recAt targetRecs r.RightId).entityId)) := by
        unfold selStep
        rw [if_pos hb]
      rw [hstep]
      rcases ih ((recAt targetRecs r.RightId).firstSeenTms,
          some ((recAt targetRecs r.RightId).entityId)) with ⟨hf, hall⟩ | h
      · refine Or.inr ⟨r, List.mem_cons_self _ _, ?_, ?_, hb, ?_⟩
        · rw [hf]
        · rw [hf]
        · intro r2 hr2
          rcases List.mem_cons.mp hr2 with rfl | hr3
          · exact le_refl _
          · exact hall r2 hr3
      · rcases h with ⟨r0, hr0, h1, h2, h3, h4⟩
        refine Or.inr ⟨r0, List.mem_cons_of_mem r hr0, h1, h2, ?_, ?_⟩
        · exact lt_trans hb h3
        · intro r2 hr2
          rcases List.mem_cons.mp hr2 with rfl | hr3
          · exact le_of_lt h3
          · exact h4 r2 hr3
    · have hstep : selStep targetRecs b r = b := by
        unfold selStep
        rw [if_neg hb]
      rw [hstep]
      rcases ih b with ⟨hf, hall⟩ | h
      · refine Or.inl ⟨hf, ?_⟩
        intro r2 hr2
        rcases List.mem_cons.mp hr2 with rfl | hr3
        · exact le_of_not_lt hb
        · exact hall r2 hr3
      · rcases h with ⟨r0, hr0, h1, h2, h3, h4⟩
        refine Or.inr ⟨r0, List.mem_cons_of_mem r hr0, h1, h2, h3, ?_⟩
        intro r2 hr2
        rcases List.mem_cons.mp hr2 with rfl | hr3
        · exact le_of_lt (lt_of_le_of_lt (le_of_not_lt hb) h3)
        · exact h4 r2 hr3

/-- A selected first-seen target comes from a group member whose
first-seen timestamp is positive and maximal within the group. -/
theorem selectFirstSeen_some_spec {targetRecs : List EntityRec}
    {g : List CompareResult} {t : String}
    (h : selectFirstSeen targetRecs g = some t) :
    ∃ r ∈ g, t = (recAt targetRecs r.RightId).entityId ∧
      0 < (recAt targetRecs r.RightId).firstSeenTms ∧
      ∀ r2 ∈ g, (recAt targetRecs r2.RightId).firstSeenTms ≤
        (recAt targetRecs r.RightId).firstSeenTms := by
  unfold selectFirstSeen at h
  rcases selStep_fold_cases targetRecs g ((0 : Int), (none : Option String)) with
    ⟨hf, _⟩ | ⟨r, hr, h1, h2, h3, h4⟩
  · rw [hf] at h
    exact absurd h (by simp)
  · rw [h2] at h
    exact ⟨r, hr, (Option.some_injective _ h).symm, h3, h4⟩

theorem addMMM_fold_fst_hasKey_mono (sourceRecs targetRecs : List EntityRec)
    (prevMatches : List (String × String)) :
    ∀ (gs : List (List CompareResult))
      (acc : List (String × List String) × List (String × String)) (k : String),
      hasKey acc.1 k = true →
      hasKey ((gs.foldl
        (addMatchingMultiMatched sourceRecs targetRecs prevMatches) acc).1) k
        = true := by
  intro gs
  induction gs with
  | nil => intro acc k h; exact h
  | cons g rest ih =>
    intro acc k h
    rw [List.foldl_cons]
    refine ih _ k ?_
    unfold addMatchingMultiMatched
    split
    · exact h
    · dsimp only
      split
      · exact h
      · exact setKV_hasKey_mono h

theorem addMMM_fold_fst_key_of_group (sourceRecs targetRecs : List EntityRec)
    (prevMatches : List (String × String)) :
    ∀ (gs : List (List CompareResult))
      (acc : List (String × List String) × List (String × String))
      (c : CompareResult) (g2 : List CompareResult),
      (c :: g2) ∈ gs →
      hasKey prevMatches ((recAt sourceRecs c.LeftId).entityId) = false →
      hasKey ((gs.foldl
        (addMatchingMultiMatched sourceRecs targetRecs prevMatches) acc).1)
        ((recAt sourceRecs c.LeftId).entityId) = true := by
  intro gs
  induction gs with
  | nil => intro acc c g2 hmem; exact absurd hmem (by simp)
  | cons g rest ih =>
    intro acc c g2 hmem hprev
    rw [List.foldl_cons]
    rcases List.mem_cons.mp hmem with heq | hmem2
    · subst heq
      refine addMMM_fold_fst_hasKey_mono sourceRecs targetRecs prevMatches rest _ _ ?_
      unfold addMatchingMultiMatched
      dsimp only
      rw [if_neg (by simp [hprev])]
      exact setKV_hasKey_self _ _ _
    · exact ih _ c g2 hmem2 hprev

theorem addMMM_fold_fst_mem (sourceRecs targetRecs : List EntityRec)
    (prevMatches : List (String × String)) :
    ∀ (gs : List (List CompareResult))
      (acc : List (String × List String) × List (String × String))
      (p : String × List String),
      p ∈ (gs.foldl
        (addMatchingMultiMatched sourceRecs targetRecs prevMatches) acc).1 →
      p ∈ acc.1 ∨ ∃ c g2, (c :: g2) ∈ gs ∧
        p.1 = (recAt sourceRecs c.LeftId).entityId := by
  intro gs
  induction gs with
  | nil => intro acc p h; exact Or.inl h
  | cons g rest ih =>
    intro acc p h
    rw [List.foldl_cons] at h
    rcases ih _ p h with h2 | ⟨c, g2, hm, he⟩
    · cases g with
      | nil => exact Or.inl h2
      | cons c g2 =>
        unfold addMatchingMultiMatched at h2
        dsimp only at h2
        split at h2
        · exact Or.inl h2
        · rcases setKV_mem h2 with h3 | h3
          · exact Or.inl h3
          · exact Or.inr ⟨c, g2, List.mem_cons_self _ _, by rw [h3]⟩
    · exact Or.inr ⟨c, g2, List.mem_cons_of_mem _ hm, he⟩

theorem addMMM_fold_snd_mem (sourceRecs targetRecs : List EntityRec)
    (prevMatches : List (String × String)) :
    ∀ (gs : List (List CompareResult))
      (acc : List (String × List String) × List (String × String))
      (p : String × String),
      p ∈ (gs.foldl
        (addMatchingMultiMatched sourceRecs targetRecs prevMatches) acc).2 →
      p ∈ acc.2 ∨ ∃ c g2, (c :: g2) ∈ gs ∧
        p.1 = (recAt sourceRecs c.LeftId).entityId ∧
        hasKey prevMatches p.1 = false ∧
        selectFirstSeen targetRecs (c :: g2) = some p.2 := by
  intro gs
  induction gs with
  | nil => intro acc p h; exact Or.inl h
  | cons g rest ih =>
    intro acc p h
    rw [List.foldl_cons] at h
    rcases ih _ p h with h2 | ⟨c, g2, hm, he⟩
    · cases g with
      | nil => exact Or.inl h2
      | cons c g2 =>
        unfold addMatchingMultiMatched at h2
        dsimp only at h2
        split at h2
        · exact Or.inl h2
        · rename_i hkp
          cases hsel : selectFirstSeen targetRecs (c :: g2) with
          | none =>
            rw [hsel] at h2
            dsimp only at h2
            exact Or.inl h2
          | some t =>
            rw [hsel] at h2
            dsimp only at h2
            rcases setKV_mem h2 with h3 | h3
            · exact Or.inl h3
            · refine Or.inr ⟨c, g2, List.mem_cons_self _ _, by rw [h3], ?_, ?_⟩
              · rw [h3]
                cases hres : hasKey prevMatches
                    ((recAt sourceRecs c.LeftId).entityId) with
                | false => exact rfl
                | true => exact absurd hres hkp
              · rw [hsel, h3]
    · exact Or.inr ⟨c, g2, List.mem_cons_of_mem _ hm, he⟩

theorem blockStep_fold_mono :
    ∀ (l : List (String × String)) (acc : List (String × String) × List String)
      (x : String), x ∈ acc.2 → x ∈ (l.foldl blockStep acc).2 := by
  intro l
  induction l with
  | nil => intro acc x h; exact h
  | cons p rest ih =>
    intro acc x h
    rw [List.foldl_cons]
    refine ih _ x ?_
    unfold blockStep
    split
    · dsimp only
      exact List.mem_append.mpr (Or.inl h)
    · exact h

theorem blockStep_fold_lookup :
    ∀ (l : List (String × String)) (acc : List (String × String) × List String)
      (t v : String), lookupKV acc.1 t = some v →
      lookupKV (l.foldl blockStep acc).1 t = some v := by
  intro l
  induction l with
  | nil => intro acc t v h; exact h
  | cons p rest ih =>
    intro acc t v h
    rw [List.foldl_cons]
    refine ih _ t v ?_
    unfold blockStep
    split
    · exact h
    · dsimp only
      exact lookupKV_append_of_some h _

/-- Once a pair whose target is already claimed in the reverse map is
processed, both the recorded claimant and the later source are blocked. -/
theorem blockStep_fold_conflict :
    ∀ (l : List (String × String)) (acc : List (String × String) × List String)
      (t v s : String), lookupKV acc.1 t = some v → (s, t) ∈ l →
      v ∈ (l.foldl blockStep acc).2 ∧ s ∈ (l.foldl blockStep acc).2 := by
  intro l
  induction l with
  | nil => intro acc t v s hl hm; exact absurd hm (by simp)
  | cons p rest ih =>
    intro acc t v s hl hm
    rw [List.foldl_cons]
    rcases List.mem_cons.mp hm with heq | hm2
    · subst heq
      have hstep : blockStep acc (s, t) = (acc.1, acc.2 ++ [v, s]) := by
        unfold blockStep
        rw [hl]
      rw [hstep]
      constructor
      · exact blockStep_fold_mono rest _ v (by simp)
      · exact blockStep_fold_mono rest _ s (by simp)
    · have hl2 : lookupKV (blockStep acc p).1 t = some v := by
        unfold blockStep
        split
        · exact hl
        · dsimp only
          exact lookupKV_append_of_some hl _
      exact ih _ t v s hl2 hm2

/-- Two distinct members of a list occur at distinct positions, one
strictly after the other. -/
theorem mem_ordered_split {α : Type} {l : List α} {a b : α} (ha : a ∈ l)
    (hb : b ∈ l) (hne : a ≠ b) :
    ∃ l1 l2, (l = l1 ++ a :: l2 ∧ b ∈ l2) ∨ (l = l1 ++ b :: l2 ∧ a ∈ l2) := by
  rcases List.append_of_mem ha with ⟨s1, s2, rfl⟩
  rcases List.mem_append.mp hb with hb1 | hb2
  · rcases List.append_of_mem hb1 with ⟨u1, u2, rfl⟩
    refine ⟨u1, u2 ++ a :: s2, Or.inr ⟨by simp, by simp⟩⟩
  · rcases List.mem_cons.mp hb2 with heq | hb3
    · exact absurd heq.symm hne
    · exact ⟨s1, s2, Or.inl ⟨rfl, hb3⟩⟩

theorem blockStep_eq_of_some {acc : List (String × String) × List String}
    {p : String × String} {v : String} (h : lookupKV acc.1 p.2 = some v) :
    blockStep acc p = (acc.1, acc.2 ++ [v, p.1]) := by
  unfold blockStep
  rw [h]

theorem blockStep_eq_of_none {acc : List (String × String) × List String}
    {p : String × String} (h : lookupKV acc.1 p.2 = none) :
    blockStep acc p = (acc.1 ++ [(p.2, p.1)], acc.2) := by
  unfold blockStep
  rw [h]

theorem blocked_of_split {l1 l2 : List (String × String)} {sa sb t : String}
    (hm : (sb, t) ∈ l2) :
    sa ∈ blockedSources (l1 ++ (sa, t) :: l2) ∧
    sb ∈ blockedSources (l1 ++ (sa, t) :: l2) := by
  unfold blockedSources
  rw [List.foldl_append, List.foldl_cons]
  cases hl : lookupKV (List.foldl blockStep ([], []) l1).1 t with
  | some s0 =>
    rw [blockStep_eq_of_some (p := (sa, t)) hl]
    refine ⟨blockStep_fold_mono l2 _ sa (by simp), ?_⟩
    exact (blockStep_fold_conflict l2
      ((List.foldl blockStep ([], []) l1).1,
       (List.foldl blockStep ([], []) l1).2 ++ [s0, (sa, t).1]) t s0 sb hl hm).2
  | none =>
    rw [blockStep_eq_of_none (p := (sa, t)) hl]
    have hl2 : lookupKV ((List.foldl blockStep ([], []) l1).1 ++ [(t, sa)]) t
        = some sa :=
      lookupKV_append_of_none (hasKey_false_of_lookup_none hl) sa
    exact ⟨(blockStep_fold_conflict l2 _ t sa sb hl2 hm).1,
           (blockStep_fold_conflict l2 _ t sa sb hl2 hm).2⟩

/-- Two distinct sources competing for the same promoted target are both
blocked. -/
theorem blocked_of_two {l : List (String × String)} {s1 s2 t : String}
    (hne : s1 ≠ s2) (h1 : (s1, t) ∈ l) (h2 : (s2, t) ∈ l) :
    s1 ∈ blockedSources l ∧ s2 ∈ blockedSources l := by
  have hpair : (s1, t) ≠ (s2, t) := fun h => hne (congrArg Prod.fst h)
  rcases mem_ordered_split h1 h2 hpair with ⟨l1, l2, ⟨hdec, hb⟩ | ⟨hdec, hb⟩⟩
  · rw [hdec]
    exact blocked_of_split hb
  · rw [hdec]
    have h := @blocked_of_split l1 l2 s2 s1 t hb
    exact ⟨h.2, h.1⟩

/-- Claim C8: every entry of the first-seen promotion map returned by
genMultiMatchedMap promotes, for a source group not matched in the
previous run, a target of that group whose first-seen timestamp is
positive and maximal within the group; and when two different sources
select the same target, both sources are blocked and absent from the
returned map, so the surviving promotions claim pairwise distinct
targets. -/
theorem genMultiMatchedMap_firstSeen_promotion
    (sourceRecs targetRecs : List EntityRec) (results : List CompareResult)
    (prevMatches : List (String × String)) :
    (∀ p ∈ (genMultiMatchedMap sourceRecs targetRecs results prevMatches).2,
      ∃ c g2, (c :: g2) ∈ groupsByLeft results ∧
        p.1 = (recAt sourceRecs c.LeftId).entityId ∧
        hasKey prevMatches p.1 = false ∧
        ∃ r ∈ c :: g2, p.2 = (recAt targetRecs r.RightId).entityId ∧
          0 < (recAt targetRecs r.RightId).firstSeenTms ∧
          ∀ r2 ∈ c :: g2, (recAt targetRecs r2.RightId).firstSeenTms ≤
            (recAt targetRecs r.RightId).firstSeenTms) ∧
    (∀ s1 s2 t, s1 ≠ s2 →
      (s1, t) ∈ (multiMatchedPair sourceRecs targetRecs results prevMatches).2 →
      (s2, t) ∈ (multiMatchedPair sourceRecs targetRecs results prevMatches).2 →
      hasKey (genMultiMatchedMap sourceRecs targetRecs results prevMatches).2 s1
        = false ∧
      hasKey (genMultiMatchedMap sourceRecs targetRecs results prevMatches).2 s2
        = false) ∧
    (∀ p ∈ (genMultiMatchedMap sourceRecs targetRecs results prevMatches).2,
      ∀ q ∈ (genMultiMatchedMap sourceRecs targetRecs results prevMatches).2,
      p.2 = q.2 → p.1 = q.1) := by
  refine ⟨?_, ?_, ?_⟩
  · intro p hp
    simp only [genMultiMatchedMap] at hp
    have hpm : p ∈ (multiMatchedPair sourceRecs targetRecs results prevMatches).2 :=
      (List.mem_filter.mp hp).1
    unfold multiMatchedPair at hpm
    rcases addMMM_fold_snd_mem sourceRecs targetRecs prevMatches
        (groupsByLeft results) ([], []) p hpm with h | ⟨c, g2, hm, he, hprev, hsel⟩
    · exact absurd h (by simp)
    · rcases selectFirstSeen_some_spec hsel with ⟨r, hr, hre, hpos, hmax⟩
      exact ⟨c, g2, hm, he, hprev, r, hr, hre, hpos, hmax⟩
  · intro s1 s2 t hne h1 h2
    have hblk := blocked_of_two hne h1 h2
    constructor
    · rw [hasKey_false_iff]
      intro hmem
      rcases List.mem_map.mp hmem with ⟨q, hq, hqe⟩
      simp only [genMultiMatchedMap] at hq
      have hcond := (List.mem_filter.mp hq).2
      rw [hqe] at hcond
      simp at hcond
      exact hcond hblk.1
    · rw [hasKey_false_iff]
      intro hmem
      rcases List.mem_map.mp hmem with ⟨q, hq, hqe⟩
      simp only [genMultiMatchedMap] at hq
      have hcond := (List.mem_filter.mp hq).2
      rw [hqe] at hcond
      simp at hcond
      exact hcond hblk.2
  · intro p hp q hq he
    by_contra hne
    simp only [genMultiMatchedMap] at hp hq
    have hpm := (List.mem_filter.mp hp).1
    have hqm := (List.mem_filter.mp hq).1
    have hpc := (List.mem_filter.mp hp).2
    have hp1 : (p.1, p.2) ∈
        (multiMatchedPair sourceRecs targetRecs results prevMatches).2 := by
      rw [Prod.mk.eta]
      exact hpm
    have hq1 : (q.1, p.2) ∈
        (multiMatchedPair sourceRecs targetRecs results prevMatches).2 := by
      rw [he, Prod.mk.eta]
      exact hqm
    have hblk := blocked_of_two hne hp1 hq1
    simp at hpc
    exact hpc hblk.1

theorem addMatchPair_fst_hasKey_mono
    {st : List (String × String) × List (String × String)} {a b k : String}
    (h : hasKey st.1 k = true) : hasKey (addMatchPair st a b).1 k = true := by
  unfold addMatchPair
  split
  · exact h
  · split
    · exact h
    · dsimp only
      rw [hasKey_iff, List.map_append]
      exact List.mem_append.mpr (Or.inl (hasKey_iff.mp h))

theorem foldPairs_fst_hasKey_mono {α : Type} (f g : α → String) :
    ∀ (l : List α) (st : List (String × String) × List (String × String))
      (k : String), hasKey st.1 k = true →
      hasKey ((l.foldl (fun st x => addMatchPair st (f x) (g x)) st).1) k = true := by
  intro l
  induction l with
  | nil => intro st k h; exact h
  | cons x l ih =>
    intro st k h
    rw [List.foldl_cons]
    exact ih _ k (addMatchPair_fst_hasKey_mono h)

/-- With no source key and no target key repeated, every pair of the fold
is entered and the key lists extend exactly by the folded pairs. -/
theorem foldPairs_keys {α : Type} (f g : α → String) :
    ∀ (l : List α) (st : List (String × String) × List (String × String)),
      (st.1.map Prod.fst ++ l.map f).Nodup →
      (st.2.map Prod.fst ++ l.map g).Nodup →
      ((l.foldl (fun st x => addMatchPair st (f x) (g x)) st).1.map Prod.fst
        = st.1.map Prod.fst ++ l.map f) ∧
      ((l.foldl (fun st x => addMatchPair st (f x) (g x)) st).2.map Prod.fst
        = st.2.map Prod.fst ++ l.map g) := by
  intro l
  induction l with
  | nil => intro st h1 h2; simp
  | cons x l ih =>
    intro st h1 h2
    simp only [List.map_cons] at h1 h2
    have hfx : hasKey st.1 (f x) = false := by
      rw [hasKey_false_iff]
      intro hmem
      exact (List.nodup_append.mp h1).2.2 hmem (List.mem_cons_self _ _)
    have hgx : hasKey st.2 (g x) = false := by
      rw [hasKey_false_iff]
      intro hmem
      exact (List.nodup_append.mp h2).2.2 hmem (List.mem_cons_self _ _)
    have hstep : addMatchPair st (f x) (g x) =
        (st.1 ++ [(f x, g x)], st.2 ++ [(g x, f x)]) := by
      unfold addMatchPair
      rw [if_neg (by simp [hfx]), if_neg (by simp [hgx])]
    rw [List.foldl_cons, hstep]
    have h1g : ((st.1 ++ [(f x, g x)]).map Prod.fst ++ l.map f).Nodup := by
      simp only [List.map_append, List.map_cons, List.map_nil]
      simpa [List.append_assoc] using h1
    have h2g : ((st.2 ++ [(g x, f x)]).map Prod.fst ++ l.map g).Nodup := by
      simp only [List.map_append, List.map_cons, List.map_nil]
      simpa [List.append_assoc] using h2
    obtain ⟨e1, e2⟩ := ih (st.1 ++ [(f x, g x)], st.2 ++ [(g x, f x)]) h1g h2g
    constructor
    · rw [e1]
      simp
    · rw [e2]
      simp

theorem foldPairs_fst_mem {α : Type} (f g : α → String) :
    ∀ (l : List α) (st : List (String × String) × List (String × String))
      (p : String × String),
      p ∈ (l.foldl (fun st x => addMatchPair st (f x) (g x)) st).1 →
      p ∈ st.1 ∨ ∃ x ∈ l, p = (f x, g x) := by
  intro l
  induction l with
  | nil => intro st p h; exact Or.inl h
  | cons x l ih =>
    intro st p h
    rw [List.foldl_cons] at h
    rcases ih _ p h with h2 | ⟨x2, hx2, he⟩
    · unfold addMatchPair at h2
      split at h2
      · exact Or.inl h2
      · split at h2
        · exact Or.inl h2
        · dsimp only at h2
          rcases List.mem_append.mp h2 with h3 | h3
          · exact Or.inl h3
          · simp at h3
            exact Or.inr ⟨x, List.mem_cons_self _ _, h3⟩
    · exact Or.inr ⟨x2, List.mem_cons_of_mem _ hx2, he⟩

/-- With the entity ids pairwise distinct, the id read at an in-range
index determines the index. -/
theorem recAt_entityId_inj {recs : List EntityRec}
    (hnd : (recs.map EntityRec.entityId).Nodup) {i j : Nat}
    (hi : i < recs.length) (hj : j < recs.length)
    (he : (recAt recs i).entityId = (recAt recs j).entityId) : i = j := by
  unfold recAt at he
  rw [List.getD_eq_getElem recs _ hi, List.getD_eq_getElem recs _ hj] at he
  have hi2 : i < (recs.map EntityRec.entityId).length := by simpa using hi
  have hj2 : j < (recs.map EntityRec.entityId).length := by simpa using hj
  have he2 : (recs.map EntityRec.entityId).get ⟨i, hi2⟩
      = (recs.map EntityRec.entityId).get ⟨j, hj2⟩ := by
    simp only [List.get_eq_getElem, List.getElem_map]
    exact he
  have := hnd.get_inj_iff.mp he2
  exact Fin.mk.injEq _ _ _ _ ▸ this

/-- With no committed source id and no committed target id repeated, the
id of every committed source index is a key of the output Matches. -/
theorem genOutputPayload_matches_of_matched
    (sourceRecs targetRecs : List EntityRec) (results : List CompareResult)
    (matchedEntities : List (Nat × Nat)) (prevMatches : MatchOutputType)
    (remainingMatch : List Nat)
    (hmsrc : (matchedEntities.map
      (fun p => (recAt sourceRecs p.1).entityId)).Nodup)
    (hmtgt : (matchedEntities.map
      (fun p => (recAt targetRecs p.2).entityId)).Nodup)
    {p : Nat × Nat} (hp : p ∈ matchedEntities) :
    hasKey (genOutputPayload sourceRecs targetRecs results matchedEntities
      prevMatches remainingMatch).Matches ((recAt sourceRecs p.1).entityId)
      = true := by
  obtain ⟨e1, _⟩ := foldPairs_keys
    (fun q : Nat × Nat => (recAt sourceRecs q.1).entityId)
    (fun q : Nat × Nat => (recAt targetRecs q.2).entityId) matchedEntities
    (([], []) : List (String × String) × List (String × String))
    (by simpa using hmsrc) (by simpa using hmtgt)
  have hmem : (recAt sourceRecs p.1).entityId ∈
      (([], []) : List (String × String) × List (String × String)).1.map
        Prod.fst ++ matchedEntities.map
        (fun q : Nat × Nat => (recAt sourceRecs q.1).entityId) := by
    simp only [List.map_nil, List.nil_append]
    exact List.mem_map.mpr ⟨p, hp, rfl⟩
  rw [← e1] at hmem
  have h1 := hasKey_iff.mpr hmem
  have h2 := foldPairs_fst_hasKey_mono
    (fun q : String × String => q.1) (fun q : String × String => q.2)
    prevMatches.Matches _ _ h1
  have h3 := foldPairs_fst_hasKey_mono
    (fun q : String × String => q.1) (fun q : String × String => q.2)
    (genMultiMatchedMap sourceRecs targetRecs results prevMatches.Matches).2 _ _ h2
  exact h3

/-- Every key of the output Matches is the id of a committed source, a
previous-run key, or a first-seen-promoted source. -/
theorem genOutputPayload_matches_keys
    (sourceRecs targetRecs : List EntityRec) (results : List CompareResult)
    (matchedEntities : List (Nat × Nat)) (prevMatches : MatchOutputType)
    (remainingMatch : List Nat) {k : String}
    (h : hasKey (genOutputPayload sourceRecs targetRecs results matchedEntities
      prevMatches remainingMatch).Matches k = true) :
    k ∈ matchedEntities.map (fun p => (recAt sourceRecs p.1).entityId) ∨
    k ∈ prevMatches.Matches.map Prod.fst ∨
    k ∈ (genMultiMatchedMap sourceRecs targetRecs results
      prevMatches.Matches).2.map Prod.fst := by
  rw [hasKey_iff] at h
  rcases List.mem_map.mp h with ⟨q, hq, hqe⟩
  have hq2 : q ∈ ((genMultiMatchedMap sourceRecs targetRecs results
      prevMatches.Matches).2.foldl (fun st p => addMatchPair st p.1 p.2)
      (prevMatches.Matches.foldl (fun st p => addMatchPair st p.1 p.2)
        (matchedEntities.foldl (fun st p => addMatchPair st
          (recAt sourceRecs p.1).entityId (recAt targetRecs p.2).entityId)
          ([], [])))).1 := hq
  rcases foldPairs_fst_mem (fun p : String × String => p.1)
      (fun p : String × String => p.2) _ _ q hq2 with h2 | ⟨x, hx, he⟩
  · rcases foldPairs_fst_mem (fun p : String × String => p.1)
        (fun p : String × String => p.2) _ _ q h2 with h3 | ⟨x, hx, he⟩
    · rcases foldPairs_fst_mem
          (fun p : Nat × Nat => (recAt sourceRecs p.1).entityId)
          (fun p : Nat × Nat => (recAt targetRecs p.2).entityId) _ _ q h3 with
        h4 | ⟨x, hx, he⟩
      · exact absurd h4 (by simp)
      · exact Or.inl (List.mem_map.mpr ⟨x, hx, by rw [← hqe, he]⟩)
    · exact Or.inr (Or.inl (List.mem_map.mpr ⟨x, hx, by rw [← hqe, he]⟩))
  · exact Or.inr (Or.inr (List.mem_map.mpr ⟨x, hx, by rw [← hqe, he]⟩))

/-- Every key of the output MultiMatched is the id of the source of some
leftover candidate and is not a previous-run key. -/
theorem genOutputPayload_multimatched_keys
    (sourceRecs targetRecs : List EntityRec) (results : List CompareResult)
    (matchedEntities : List (Nat × Nat)) (prevMatches : MatchOutputType)
    (remainingMatch : List Nat) {k : String}
    (h : hasKey (genOutputPayload sourceRecs targetRecs results matchedEntities
      prevMatches remainingMatch).MultiMatched k = true) :
    (∃ c ∈ results, k = (recAt sourceRecs c.LeftId).entityId) ∧
    hasKey prevMatches.Matches k = false := by
  have he : (genOutputPayload sourceRecs targetRecs results matchedEntities
      prevMatches remainingMatch).MultiMatched =
      ((groupsByLeft results).foldl (addMatchingMultiMatched sourceRecs
        targetRecs prevMatches.Matches) ([], [])).1 := rfl
  rw [he, hasKey_iff] at h
  constructor
  · rcases List.mem_map.mp h with ⟨q, hq, hqe⟩
    rcases addMMM_fold_fst_mem sourceRecs targetRecs prevMatches.Matches
        (groupsByLeft results) ([], []) q hq with h2 | ⟨c, g2, hm, he2⟩
    · exact absurd h2 (by simp)
    · refine ⟨c, ?_, by rw [← hqe, he2]⟩
      exact groupsByLeft_subset results _ hm c (List.mem_cons_self _ _)
  · exact multiMatchedPair_keys_not_prev sourceRecs targetRecs
      prevMatches.Matches (groupsByLeft results) ([], []) (by simp) k h

/-- The id of the source of every leftover candidate that is not a
previous-run key is a key of the output MultiMatched. -/
theorem genOutputPayload_multimatched_of_result
    (sourceRecs targetRecs : List EntityRec) (results : List CompareResult)
    (matchedEntities : List (Nat × Nat)) (prevMatches : MatchOutputType)
    (remainingMatch : List Nat) {r : CompareResult} (hr : r ∈ results)
    (hprev : hasKey prevMatches.Matches ((recAt sourceRecs r.LeftId).entityId)
      = false) :
    hasKey (genOutputPayload sourceRecs targetRecs results matchedEntities
      prevMatches remainingMatch).MultiMatched
      ((recAt sourceRecs r.LeftId).entityId) = true := by
  have he : (genOutputPayload sourceRecs targetRecs results matchedEntities
      prevMatches remainingMatch).MultiMatched =
      ((groupsByLeft results).foldl (addMatchingMultiMatched sourceRecs
        targetRecs prevMatches.Matches) ([], [])).1 := rfl
  rw [he]
  have hr2 : r ∈ (groupsByLeft results).flatten := by
    rw [groupsByLeft_join]
    exact hr
  rcases List.mem_flatten.mp hr2 with ⟨g, hg, hrg⟩
  cases g with
  | nil => exact absurd hrg (by simp)
  | cons c g2 =>
    have hcl : c.LeftId = r.LeftId :=
      groupsByLeft_same_left results _ hg c (List.mem_cons_self _ _) r hrg
    rw [← hcl] at hprev ⊢
    exact addMMM_fold_fst_key_of_group sourceRecs targetRecs prevMatches.Matches
      (groupsByLeft results) ([], []) c g2 hg hprev

/-- Every key of the surviving first-seen promotion map is the id of the
source of some leftover candidate. -/
theorem genMultiMatchedMap_snd_keys
    (sourceRecs targetRecs : List EntityRec) (results : List CompareResult)
    (prevMatches : List (String × String)) {k : String}
    (h : k ∈ (genMultiMatchedMap sourceRecs targetRecs results
      prevMatches).2.map Prod.fst) :
    ∃ c ∈ results, k = (recAt sourceRecs c.LeftId).entityId := by
  rcases List.mem_map.mp h with ⟨q, hq, hqe⟩
  simp only [genMultiMatchedMap] at hq
  have hqm : q ∈ (multiMatchedPair sourceRecs targetRecs results prevMatches).2 :=
    (List.mem_filter.mp hq).1
  unfold multiMatchedPair at hqm
  rcases addMMM_fold_snd_mem sourceRecs targetRecs prevMatches
      (groupsByLeft results) ([], []) q hqm with h2 | ⟨c, g2, hm, he2, _, _⟩
  · exact absurd h2 (by simp)
  · refine ⟨c, ?_, by rw [← hqe, he2]⟩
    exact groupsByLeft_subset results _ hm c (List.mem_cons_self _ _)

/-- The output UnMatched lists exactly the ids of the unseeded remaining
source indices with no leftover candidate and no previous-run match. -/
theorem genOutputPayload_unmatched_iff
    (sourceRecs targetRecs : List EntityRec) (results : List CompareResult)
    (matchedEntities : List (Nat × Nat)) (prevMatches : MatchOutputType)
    (remainingMatch : List Nat) (k : String) :
    k ∈ (genOutputPayload sourceRecs targetRecs results matchedEntities
      prevMatches remainingMatch).UnMatched ↔
    ((∃ i ∈ remainingMatch, (∀ r ∈ results, r.LeftId ≠ i) ∧
      k = (recAt sourceRecs i).entityId) ∧
     hasKey prevMatches.Matches k = false) := by
  have he : (genOutputPayload sourceRecs targetRecs results matchedEntities
      prevMatches remainingMatch).UnMatched =
      ((remainingMatch.filter
        (fun s => !(results.any (fun r => r.LeftId = s)))).map
        (fun i => (recAt sourceRecs i).entityId)).filter
        (fun entityIdSource => !(hasKey prevMatches.Matches entityIdSource)) :=
    rfl
  rw [he]
  constructor
  · intro h
    have hm := List.mem_filter.mp h
    rcases List.mem_map.mp hm.1 with ⟨i, hi, hie⟩
    have hif := List.mem_filter.mp hi
    refine ⟨⟨i, hif.1, ?_, hie.symm⟩, ?_⟩
    · intro r hr
      have hc := hif.2
      simp only [Bool.not_eq_true'] at hc
      rw [List.any_eq_false] at hc
      simpa using hc r hr
    · have hc := hm.2
      simpa using hc
  · rintro ⟨⟨i, hi, hall, rfl⟩, hprev⟩
    refine List.mem_filter.mpr ⟨?_, by simp [hprev]⟩
    refine List.mem_map.mpr ⟨i, ?_, rfl⟩
    refine List.mem_filter.mpr ⟨hi, ?_⟩
    simp only [Bool.not_eq_true']
    rw [List.any_eq_false]
    intro r hr
    simpa using hall r hr

/-- Claim C3 counterexample: a source record promoted by the first-seen
rule appears both as a key of Matches and as a key of MultiMatched, so a
source index can end up in more than one of the three output sets. -/
theorem genOutputPayload_not_exactly_one :
    ("A" ∈ ((genOutputPayload [EntityRec.mk "A" 50]
        [EntityRec.mk "B1" 100, EntityRec.mk "B2" 200]
        [CompareResult.mk 0 0 5, CompareResult.mk 0 1 5] [] ⟨[], [], []⟩
        [0]).Matches.map Prod.fst)) ∧
    ("A" ∈ ((genOutputPayload [EntityRec.mk "A" 50]
        [EntityRec.mk "B1" 100, EntityRec.mk "B2" 200]
        [CompareResult.mk 0 0 5, CompareResult.mk 0 1 5] [] ⟨[], [], []⟩
        [0]).MultiMatched.map Prod.fst)) ∧
    (recAt [EntityRec.mk "A" 50] 0).entityId = "A" := by decide

/-- Claim C3 (amended): with distinct source entity ids, a duplicate-free
committed match map over in-range indices, a remaining list holding every
uncommitted index and only uncommitted indices, and leftover candidates
disjoint from the committed sources (all engine invariants), every source
index whose id is not a previous-run key lands in at least one of the
three output sets, UnMatched is disjoint from the other two, and an id in
both Matches and MultiMatched is exactly a first-seen-promoted source; a
source index whose id is a previous-run key may be absent from all three
sets. -/
theorem genOutputPayload_partition_amended
    (sourceRecs targetRecs : List EntityRec) (results : List CompareResult)
    (matchedEntities : List (Nat × Nat)) (prevMatches : MatchOutputType)
    (remainingMatch : List Nat)
    (hsrc : (sourceRecs.map EntityRec.entityId).Nodup)
    (hmsrc : (matchedEntities.map
      (fun p => (recAt sourceRecs p.1).entityId)).Nodup)
    (hmtgt : (matchedEntities.map
      (fun p => (recAt targetRecs p.2).entityId)).Nodup)
    (hmlt : ∀ p ∈ matchedEntities, p.1 < sourceRecs.length)
    (hrlt : ∀ r ∈ results, r.LeftId < sourceRecs.length)
    (hremlt : ∀ i ∈ remainingMatch, i < sourceRecs.length)
    (hcomp : ∀ i, i < sourceRecs.length → i ∉ matchedEntities.map Prod.fst →
      i ∈ remainingMatch)
    (hremdisj : ∀ i ∈ remainingMatch, i ∉ matchedEntities.map Prod.fst)
    (hmres : ∀ p ∈ matchedEntities, ∀ r ∈ results, r.LeftId ≠ p.1) :
    (∀ i, i < sourceRecs.length →
      hasKey prevMatches.Matches ((recAt sourceRecs i).entityId) = false →
      hasKey (genOutputPayload sourceRecs targetRecs results matchedEntities
        prevMatches remainingMatch).Matches ((recAt sourceRecs i).entityId)
        = true ∨
      hasKey (genOutputPayload sourceRecs targetRecs results matchedEntities
        prevMatches remainingMatch).MultiMatched
        ((recAt sourceRecs i).entityId) = true ∨
      (recAt sourceRecs i).entityId ∈ (genOutputPayload sourceRecs targetRecs
        results matchedEntities prevMatches remainingMatch).UnMatched) ∧
    (∀ k ∈ (genOutputPayload sourceRecs targetRecs results matchedEntities
        prevMatches remainingMatch).UnMatched,
      hasKey (genOutputPayload sourceRecs targetRecs results matchedEntities
        prevMatches remainingMatch).Matches k = false ∧
      hasKey (genOutputPayload sourceRecs targetRecs results matchedEntities
        prevMatches remainingMatch).MultiMatched k = false) ∧
    (∀ k, hasKey (genOutputPayload sourceRecs targetRecs results
        matchedEntities prevMatches remainingMatch).Matches k = true →
      hasKey (genOutputPayload sourceRecs targetRecs results matchedEntities
        prevMatches remainingMatch).MultiMatched k = true →
      k ∈ (genMultiMatchedMap sourceRecs targetRecs results
        prevMatches.Matches).2.map Prod.fst) := by
  refine ⟨?_, ?_, ?_⟩
  · intro i hilt hiprev
    by_cases him : i ∈ matchedEntities.map Prod.fst
    · rcases List.mem_map.mp him with ⟨p, hp, hpe⟩
      left
      have h := genOutputPayload_matches_of_matched sourceRecs targetRecs
        results matchedEntities prevMatches remainingMatch hmsrc hmtgt hp
      rw [hpe] at h
      exact h
    · by_cases hires : ∃ r ∈ results, r.LeftId = i
      · rcases hires with ⟨r, hr, hre⟩
        refine Or.inr (Or.inl ?_)
        have h := genOutputPayload_multimatched_of_result sourceRecs targetRecs
          results matchedEntities prevMatches remainingMatch hr
          (by rw [hre]; exact hiprev)
        rw [hre] at h
        exact h
      · refine Or.inr (Or.inr ?_)
        rw [genOutputPayload_unmatched_iff]
        refine ⟨⟨i, hcomp i hilt him, ?_, rfl⟩, hiprev⟩
        intro r hr hre
        exact hires ⟨r, hr, hre⟩
  · intro k hk
    rw [genOutputPayload_unmatched_iff] at hk
    rcases hk with ⟨⟨i, hi, hnores, rfl⟩, hkprev⟩
    constructor
    · cases hms : hasKey (genOutputPayload sourceRecs targetRecs results
          matchedEntities prevMatches remainingMatch).Matches
          ((recAt sourceRecs i).entityId) with
      | false => rfl
      | true =>
        exfalso
        rcases genOutputPayload_matches_keys sourceRecs targetRecs results
            matchedEntities prevMatches remainingMatch hms with h1 | h1 | h1
        · rcases List.mem_map.mp h1 with ⟨p, hp, hpe⟩
          have hpi : p.1 = i :=
            recAt_entityId_inj hsrc (hmlt p hp) (hremlt i hi) hpe
          exact (hremdisj i hi) (hpi ▸ List.mem_map_of_mem Prod.fst hp)
        · exact absurd (hasKey_iff.mpr h1) (by simp [hkprev])
        · rcases genMultiMatchedMap_snd_keys sourceRecs targetRecs results
              prevMatches.Matches h1 with ⟨c, hc, hce⟩
          have hci : i = c.LeftId :=
            recAt_entityId_inj hsrc (hremlt i hi) (hrlt c hc) hce
          exact (hnores c hc) hci.symm
    · cases hmm : hasKey (genOutputPayload sourceRecs targetRecs results
          matchedEntities prevMatches remainingMatch).MultiMatched
          ((recAt sourceRecs i).entityId) with
      | false => rfl
      | true =>
        exfalso
        rcases (genOutputPayload_multimatched_keys sourceRecs targetRecs
            results matchedEntities prevMatches remainingMatch hmm).1 with
          ⟨c, hc, hce⟩
        have hci : i = c.LeftId :=
          recAt_entityId_inj hsrc (hremlt i hi) (hrlt c hc) hce
        exact (hnores c hc) hci.symm
  · intro k hkm hkmm
    obtain ⟨⟨c, hc, hce⟩, hkprev⟩ := genOutputPayload_multimatched_keys
      sourceRecs targetRecs results matchedEntities prevMatches remainingMatch
      hkmm
    rcases genOutputPayload_matches_keys sourceRecs targetRecs results
        matchedEntities prevMatches remainingMatch hkm with h1 | h1 | h1
    · rcases List.mem_map.mp h1 with ⟨p, hp, hpe⟩
      have heq : p.1 = c.LeftId := by
        refine recAt_entityId_inj hsrc (hmlt p hp) (hrlt c hc) ?_
        rw [hpe]
        exact hce
      exact absurd heq.symm (hmres p hp c hc)
    · exact absurd (hasKey_iff.mpr h1) (by simp [hkprev])
    · exact h1

/-- Witness for claim C3 (amended) at a concrete input: source index 1 is
uncommitted with one leftover candidate, and its id lands in one of the
three output sets. -/
theorem genOutputPayload_partition_amended_witness :
    hasKey (genOutputPayload
      [EntityRec.mk "A" 1, EntityRec.mk "B" 2, EntityRec.mk "C" 3]
      [EntityRec.mk "X" 5, EntityRec.mk "Y" 7] [CompareResult.mk 1 1 3]
      [(0, 0)] ⟨[], [], []⟩ [1, 2]).Matches
      ((recAt [EntityRec.mk "A" 1, EntityRec.mk "B" 2, EntityRec.mk "C" 3]
        1).entityId) = true ∨
    hasKey (genOutputPayload
      [EntityRec.mk "A" 1, EntityRec.mk "B" 2, EntityRec.mk "C" 3]
      [EntityRec.mk "X" 5, EntityRec.mk "Y" 7] [CompareResult.mk 1 1 3]
      [(0, 0)] ⟨[], [], []⟩ [1, 2]).MultiMatched
      ((recAt [EntityRec.mk "A" 1, EntityRec.mk "B" 2, EntityRec.mk "C" 3]
        1).entityId) = true ∨
    (recAt [EntityRec.mk "A" 1, EntityRec.mk "B" 2, EntityRec.mk "C" 3]
      1).entityId ∈ (genOutputPayload
      [EntityRec.mk "A" 1, EntityRec.mk "B" 2, EntityRec.mk "C" 3]
      [EntityRec.mk "X" 5, EntityRec.mk "Y" 7] [CompareResult.mk 1 1 3]
      [(0, 0)] ⟨[], [], []⟩ [1, 2]).UnMatched :=
  (genOutputPayload_partition_amended _ _ _ _ _ _ (by decide) (by decide)
    (by decide) (by decide) (by decide) (by decide) (by decide) (by decide)
    (by decide)).1 1 (by decide) (by decide)
